import Mathlib

/-!
Verification of the Leviatan liquid-democracy core against its
natural-language specification.

The development shallowly embeds the Python sources:
  * `src/delegation.py`  — voters, delegation ledger, cycle detection and
    resolution, revocation;
  * `src/voting.py`      — proposal lifecycle state machine and point
    commitment;
  * `src/constitution.py` / `src/utility.py` — article requirements.

Python dicts are embedded as insertion-ordered association lists
(`List (String × α)`): updating an existing key keeps its position,
inserting a new key appends at the end, exactly as Python dict
iteration order behaves.  Machine integers are `Int` (Python ints are
unbounded).  Methods that read or write files (`save_data`,
`load_data`) and debug printing are omitted: they do not affect the
ledger state seen by callers.
-/

namespace Leviatan

/-! ## Insertion-ordered association lists (Python `dict`) -/

/-- First-occurrence lookup, like `d[k]` / `k in d`. -/
def alookup {α : Type} : List (String × α) → String → Option α
  | [], _ => none
  | (k', v) :: t, k => if k' = k then some v else alookup t k

/-- `d[k] = v`: replace in place if the key exists, else append. -/
def aset {α : Type} : List (String × α) → String → α → List (String × α)
  | [], k, v => [(k, v)]
  | (k', v') :: t, k, v => if k' = k then (k, v) :: t else (k', v') :: aset t k v

/-- `del d[k]` (no-op when the key is absent; in the source a missing key
would raise `KeyError`, which is unreachable on the paths we model). -/
def aerase {α : Type} : List (String × α) → String → List (String × α)
  | [], _ => []
  | (k', v') :: t, k => if k' = k then t else (k', v') :: aerase t k

/-- `d[k] = f d[k]` when the key exists, else no-op (a missing key would
raise `KeyError` in the source, unreachable on the paths we model). -/
def amodify {α : Type} (l : List (String × α)) (k : String) (f : α → α) :
    List (String × α) :=
  match alookup l k with
  | none => l
  | some v => aset l k (f v)

/-- The keys of an association list, in order. -/
def akeys {α : Type} (l : List (String × α)) : List String := l.map Prod.fst

/-- Python dicts never hold a key twice; every state reachable through the
embedded operations satisfies this for all its association lists. -/
def NodupKeys {α : Type} (l : List (String × α)) : Prop := (akeys l).Nodup

theorem alookup_aset_self {α : Type} (l : List (String × α)) (k : String) (v : α) :
    alookup (aset l k v) k = some v := by
  induction l with
  | nil => simp [aset, alookup]
  | cons h t ih =>
    by_cases hk : h.1 = k
    · simp [aset, hk, alookup]
    · simp [aset, hk, alookup, ih]

theorem alookup_aset_ne {α : Type} (l : List (String × α)) {k k' : String} (v : α)
    (h : k' ≠ k) : alookup (aset l k v) k' = alookup l k' := by
  induction l with
  | nil =>
    unfold aset alookup alookup
    rw [if_neg (fun hh => h (hh.symm))]
  | cons hd t ih =>
    by_cases hk : hd.1 = k
    · subst hk
      unfold aset
      rw [if_pos rfl]
      unfold alookup
      rw [if_neg (fun hh => h hh.symm), if_neg (fun hh => h hh.symm)]
    · unfold aset
      rw [if_neg hk]
      unfold alookup
      by_cases hk' : hd.1 = k'
      · rw [if_pos hk', if_pos hk']
      · rw [if_neg hk', if_neg hk', ih]

theorem alookup_aerase_ne {α : Type} (l : List (String × α)) {k k' : String}
    (h : k' ≠ k) : alookup (aerase l k) k' = alookup l k' := by
  induction l with
  | nil => rfl
  | cons hd t ih =>
    by_cases hk : hd.1 = k
    · subst hk
      unfold aerase
      rw [if_pos rfl]
      conv_rhs => unfold alookup
      rw [if_neg (fun hh => h hh.symm)]
    · unfold aerase
      rw [if_neg hk]
      unfold alookup
      by_cases hk' : hd.1 = k'
      · rw [if_pos hk', if_pos hk']
      · rw [if_neg hk', if_neg hk', ih]

theorem akeys_cons {α : Type} (hd : String × α) (t : List (String × α)) :
    akeys (hd :: t) = hd.1 :: akeys t := rfl

theorem mem_akeys_iff_alookup {α : Type} (l : List (String × α)) (k : String) :
    k ∈ akeys l ↔ (alookup l k).isSome := by
  induction l with
  | nil => simp [akeys, alookup]
  | cons hd t ih =>
    by_cases hk : hd.1 = k
    · simp [akeys_cons, alookup, hk]
    · have hk' : ¬(k = hd.1) := fun hh => hk hh.symm
      simp only [akeys_cons, List.mem_cons, alookup, hk, if_false]
      simp [ih, hk']

theorem alookup_eq_none_of_not_mem {α : Type} (l : List (String × α)) (k : String)
    (h : k ∉ akeys l) : alookup l k = none := by
  cases hlk : alookup l k with
  | none => rfl
  | some v =>
    exact absurd ((mem_akeys_iff_alookup l k).2 (by simp [hlk])) h

theorem alookup_aerase_self {α : Type} (l : List (String × α)) (k : String)
    (h : NodupKeys l) : alookup (aerase l k) k = none := by
  induction l with
  | nil => rfl
  | cons hd t ih =>
    simp only [NodupKeys, akeys, List.map_cons, List.nodup_cons] at h
    by_cases hk : hd.1 = k
    · subst hk
      unfold aerase
      rw [if_pos rfl]
      exact alookup_eq_none_of_not_mem t hd.1 h.1
    · unfold aerase
      rw [if_neg hk]
      unfold alookup
      rw [if_neg hk]
      exact ih h.2

theorem akeys_aset_of_mem {α : Type} (l : List (String × α)) (k : String) (v : α)
    (h : k ∈ akeys l) : akeys (aset l k v) = akeys l := by
  induction l with
  | nil => simp [akeys] at h
  | cons hd t ih =>
    by_cases hk : hd.1 = k
    · unfold aset
      rw [if_pos hk]
      simp [akeys, hk]
    · unfold aset
      rw [if_neg hk]
      simp only [akeys, List.map_cons, List.cons.injEq, true_and]
      apply ih
      rcases List.mem_cons.1 h with h | h
      · exact absurd h.symm hk
      · exact h

theorem nodupKeys_aset {α : Type} (l : List (String × α)) (k : String) (v : α)
    (h : NodupKeys l) : NodupKeys (aset l k v) := by
  induction l with
  | nil => simp [aset, NodupKeys, akeys]
  | cons hd t ih =>
    simp only [NodupKeys, akeys_cons, List.nodup_cons] at h
    by_cases hk : hd.1 = k
    · unfold aset
      rw [if_pos hk]
      simp only [NodupKeys, akeys_cons, List.nodup_cons]
      exact ⟨hk ▸ h.1, h.2⟩
    · unfold aset
      rw [if_neg hk]
      simp only [NodupKeys, akeys_cons, List.nodup_cons]
      refine ⟨fun hm => ?_, ih h.2⟩
      rw [mem_akeys_iff_alookup, alookup_aset_ne _ _ (fun hh => hk hh),
        ← mem_akeys_iff_alookup] at hm
      exact h.1 hm

theorem nodupKeys_aerase {α : Type} (l : List (String × α)) (k : String)
    (h : NodupKeys l) : NodupKeys (aerase l k) := by
  induction l with
  | nil => exact h
  | cons hd t ih =>
    simp only [NodupKeys, akeys_cons, List.nodup_cons] at h
    by_cases hk : hd.1 = k
    · unfold aerase
      rw [if_pos hk]
      exact h.2
    · unfold aerase
      rw [if_neg hk]
      simp only [NodupKeys, akeys_cons, List.nodup_cons]
      refine ⟨fun hm => ?_, ih h.2⟩
      rw [mem_akeys_iff_alookup, alookup_aerase_ne _ hk,
        ← mem_akeys_iff_alookup] at hm
      exact h.1 hm

/-! ## The delegation ledger (`src/delegation.py`) -/

/-- A delegation edge payload: `{'points': int, 'subdelegable': bool}`. -/
structure DelegInfo where
  points : Int
  subdelegable : Bool
deriving DecidableEq, Repr

/-- `Voter.__init__`: `base_points = 1000`, `RESERVED_POINTS = 2`,
`available_points = base_points - RESERVED_POINTS`. -/
structure Voter where
  delegations : List (String × DelegInfo) := []
  received_points : List (String × DelegInfo) := []
  base_points : Int := 1000
  available_points : Int := 998
deriving DecidableEq, Repr

/-- `Voter.RESERVED_POINTS` (a per-instance constant in the source). -/
def RESERVED_POINTS : Int := 2

/-- `Voter.get_delegatable_points`. -/
def Voter.get_delegatable_points (v : Voter) : Int :=
  v.available_points - RESERVED_POINTS

/-- `DelegationSystem` state: the `voters` dict.  File persistence and the
debug flag are omitted. -/
structure DSState where
  voters : List (String × Voter) := []
deriving DecidableEq, Repr

def getVoter (s : DSState) (id : String) : Option Voter :=
  alookup s.voters id

/-- Points on the delegation edge `f → t`, when present. -/
def edgePoints (s : DSState) (f t : String) : Option Int :=
  (getVoter s f).bind fun v => (alookup v.delegations t).map (·.points)

/-- Points on the mirrored `received_points` entry of `t` for delegator `f`. -/
def recvPoints (s : DSState) (t f : String) : Option Int :=
  (getVoter s t).bind fun v => (alookup v.received_points f).map (·.points)

def availOf (s : DSState) (id : String) : Option Int :=
  (getVoter s id).map (·.available_points)

/-- Replace voter `id`'s record when present (Python mutates the aliased
`Voter` object held in `self.voters`). -/
def modifyVoter (s : DSState) (id : String) (g : Voter → Voter) : DSState :=
  ⟨amodify s.voters id g⟩

/-- `DelegationSystem.add_voter`. -/
def addVoter (s : DSState) (voter_id : String) : Bool × DSState :=
  if (alookup s.voters voter_id).isNone then
    (true, ⟨aset s.voters voter_id {}⟩)
  else
    (false, s)

/-- Inner DFS of `DelegationSystem.detect_cycles`.  Each child call gets its
own copy of `path` (the source passes `path.copy()`); `cycles` accumulates.
The fuel argument only bounds the recursion depth; the source recursion
terminates because `path` grows and holds distinct nodes, so any fuel
larger than the number of reachable nodes gives the source behaviour. -/
def findCyclesDfs (s : DSState) :
    Nat → String → List String → List (List String) → List (List String)
  | 0, _, _, cycles => cycles
  | fuel + 1, current, path, cycles =>
    if current ∈ path then
      cycles ++ [path.drop (path.indexOf current)]
    else
      let path := path ++ [current]
      match alookup s.voters current with
      | none => cycles
      | some v =>
        v.delegations.foldl (fun acc d => findCyclesDfs s fuel d.1 path acc) cycles

/-- `DelegationSystem.detect_cycles`.  Fuel `|voters| + 2` exceeds the
longest possible duplicate-free path, so the DFS always runs to completion
exactly as in the source. -/
def detectCycles (s : DSState) (start_voter : String) : List (List String) :=
  findCyclesDfs s (s.voters.length + 2) start_voter [] []

/-- One position of the collection loop in
`DelegationSystem.clean_delegation_cycle`: the edge
`cycle[i] → cycle[(i+1) % len(cycle)]` when both endpoints are known
voters and the edge exists. -/
def cycleEdgeAt (s : DSState) (cycle : List String) (i : Nat) :
    Option (String × String × Int) :=
  let f := cycle.getD i ""
  let t := cycle.getD ((i + 1) % cycle.length) ""
  match alookup s.voters f with
  | none => none
  | some delegator =>
    match alookup s.voters t with
    | none => none
    | some _ => (alookup delegator.delegations t).map fun info => (f, t, info.points)

/-- The `cycle_delegations` list collected by `clean_delegation_cycle`. -/
def collectCycleEdges (s : DSState) (cycle : List String) :
    List (String × String × Int) :=
  (List.range cycle.length).filterMap (cycleEdgeAt s cycle)

/-- `points_in_cycle`: the running minimum over the collected edges
(`float('inf')` start is modelled by `none` when nothing was collected). -/
def minCyclePoints : List (String × String × Int) → Option Int
  | [] => none
  | e :: rest =>
    match minCyclePoints rest with
    | none => some e.2.2
    | some m => some (min e.2.2 m)

/-- `delegator.delegations[to_voter]['points'] -= points_in_cycle`. -/
def stepSubDeleg (m : Int) (f t : String) (s : DSState) : DSState :=
  modifyVoter s f fun v =>
    { v with delegations := amodify v.delegations t fun i => { i with points := i.points - m } }

/-- `receiver.received_points[from_voter]['points'] -= points_in_cycle`. -/
def stepSubRecv (m : Int) (f t : String) (s : DSState) : DSState :=
  modifyVoter s t fun v =>
    { v with received_points := amodify v.received_points f fun i => { i with points := i.points - m } }

/-- `del delegator.delegations[to_voter]`. -/
def stepEraseDeleg (f t : String) (s : DSState) : DSState :=
  modifyVoter s f fun v => { v with delegations := aerase v.delegations t }

/-- `del receiver.received_points[from_voter]`. -/
def stepEraseRecv (f t : String) (s : DSState) : DSState :=
  modifyVoter s t fun v => { v with received_points := aerase v.received_points f }

/-- `delegator.available_points += points_in_cycle`. -/
def stepCredit (m : Int) (f : String) (s : DSState) : DSState :=
  modifyVoter s f fun v => { v with available_points := v.available_points + m }

/-- One iteration of the repayment loop in `clean_delegation_cycle`:
subtract `m` on both sides of the edge, delete the edge when its remaining
points drop to 0 or below, credit `m` to the origin when the edge leaves
the origin.  Lookups that would raise `KeyError` in the source are
unreachable along `delegate_points` (cycles returned by the DFS have
distinct nodes) and are modelled as no-ops. -/
def applyCycleStep (origin : String) (m : Int) (s : DSState)
    (e : String × String × Int) : DSState :=
  let f := e.1
  let t := e.2.1
  let s := stepSubDeleg m f t s
  let s := stepSubRecv m f t s
  let s :=
    if (edgePoints s f t).any (· ≤ 0) then
      stepEraseRecv f t (stepEraseDeleg f t s)
    else s
  if f = origin then stepCredit m f s else s

/-- `DelegationSystem.clean_delegation_cycle`. -/
def cleanDelegationCycle (s : DSState) (cycle : List String) : DSState :=
  match cycle with
  | [] => s
  | origin :: _ =>
    if (alookup s.voters origin).isNone then s
    else
      let ces := collectCycleEdges s cycle
      match minCyclePoints ces with
      | none => s
      | some m => ces.foldl (applyCycleStep origin m) s

/-- First half of the edge recording in `DelegationSystem.delegate_points`:
create-or-increment the delegator's `delegations[to]` entry (the
`subdelegable` flag is only written when the entry is created) and debit
`available_points`. -/
def applyDelegationFrom (s : DSState) (from_voter to_voter : String)
    (points : Int) (subdelegable : Bool) : DSState :=
  match alookup s.voters from_voter with
  | none => s
  | some delegator =>
    let delegs :=
      if (alookup delegator.delegations to_voter).isNone then
        aset delegator.delegations to_voter ⟨0, subdelegable⟩
      else delegator.delegations
    let delegs := amodify delegs to_voter fun i => { i with points := i.points + points }
    ⟨aset s.voters from_voter
      { delegator with delegations := delegs,
                       available_points := delegator.available_points - points }⟩

/-- Second half of the edge recording: create-or-increment the receiver's
`received_points[from]` entry. -/
def applyDelegationTo (s : DSState) (from_voter to_voter : String)
    (points : Int) (subdelegable : Bool) : DSState :=
  match alookup s.voters to_voter with
  | none => s
  | some receiver =>
    let recv :=
      if (alookup receiver.received_points from_voter).isNone then
        aset receiver.received_points from_voter ⟨0, subdelegable⟩
      else receiver.received_points
    let recv := amodify recv from_voter fun i => { i with points := i.points + points }
    ⟨aset s.voters to_voter { receiver with received_points := recv }⟩

/-- The edge-recording part of `DelegationSystem.delegate_points` (between
the validity checks and cycle detection), in the source's statement order:
delegator's side first, then the receiver's side looked up in the updated
state (Python aliasing). -/
def applyDelegation (s : DSState) (from_voter to_voter : String) (points : Int)
    (subdelegable : Bool) : DSState :=
  match alookup s.voters from_voter with
  | none => s
  | some _ =>
    applyDelegationTo (applyDelegationFrom s from_voter to_voter points subdelegable)
      from_voter to_voter points subdelegable

/-- `DelegationSystem.delegate_points`: validate, record the edge, then
detect and clean cycles before returning. -/
def delegatePoints (s : DSState) (from_voter to_voter : String) (points : Int)
    (subdelegable : Bool := false) : Bool × DSState :=
  match alookup s.voters from_voter, alookup s.voters to_voter with
  | some delegator, some _ =>
    if points > delegator.get_delegatable_points ∨ points ≤ 0 then (false, s)
    else
      let s2 := applyDelegation s from_voter to_voter points subdelegable
      let cycles := detectCycles s2 from_voter
      (true, cycles.foldl cleanDelegationCycle s2)
  | _, _ => (false, s)

/-- `DelegationSystem.subdelegate_points`: cap by the subdelegable received
points, then delegate non-subdelegably. -/
def subdelegatePoints (s : DSState) (from_voter to_voter : String) (points : Int) :
    Bool × DSState :=
  match alookup s.voters from_voter, alookup s.voters to_voter with
  | some delegator, some _ =>
    let delegatable :=
      min (((delegator.received_points.filter (·.2.subdelegable)).map (·.2.points)).sum)
          delegator.get_delegatable_points
    if points > delegatable ∨ points ≤ 0 then (false, s)
    else delegatePoints s from_voter to_voter points false
  | _, _ => (false, s)

/-! ### Revocation (second `revoke_delegation`, the one in effect)

In the source file the class defines `revoke_delegation` twice; the later
definition (lines 414-432) shadows the earlier one, so it is the method in
effect.  It and `get_total_delegated_points` call three helpers —
`get_delegations_to`, `get_delegations_from`, `_remove_delegation` — that
exist nowhere in the repository, so those helpers are modelled from the
spec below. -/

/-- Modelled from the spec: `get_delegations_to(user)` is absent from the
repository.  Per the data model (§3) and the call sites, it returns the
incoming delegation edges of `user`: one `(from_id, points)` record for
every voter whose `delegations` mapping contains `user`, in voter-registry
order. -/
def getDelegationsTo (s : DSState) (user_id : String) : List (String × Int) :=
  s.voters.filterMap fun pr =>
    (alookup pr.2.delegations user_id).map fun info => (pr.1, info.points)

/-- Modelled from the spec: `get_delegations_from(user)` is absent from the
repository.  It returns the outgoing delegation edges of `user`: one
`(to_id, points)` record per entry of `user`'s `delegations` mapping. -/
def getDelegationsFrom (s : DSState) (user_id : String) : List (String × Int) :=
  match alookup s.voters user_id with
  | none => []
  | some v => v.delegations.map fun pr => (pr.1, pr.2.points)

/-- Modelled from the spec: `_remove_delegation(from, to)` is absent from
the repository.  Per §4.1 ("removes the direct edge") it deletes the edge
from `from`'s `delegations` and `to`'s `received_points`, reporting whether
the direct edge existed; points are credited separately by the caller. -/
def removeDelegation (s : DSState) (from_id to_id : String) : Bool × DSState :=
  match alookup s.voters from_id with
  | none => (false, s)
  | some v =>
    match alookup v.delegations to_id with
    | none => (false, s)
    | some _ =>
      let s := modifyVoter s from_id fun v => { v with delegations := aerase v.delegations to_id }
      let s := modifyVoter s to_id fun v => { v with received_points := aerase v.received_points from_id }
      (true, s)

/-- `DelegationSystem.get_total_delegated_points` (source, lines 394-412),
written over the modelled `get_delegations_to`.  The `visited` set is a
single Python set mutated in place, so it threads through the recursion and
across siblings.  Fuel bounds the recursion depth; each level inserts a
fresh voter id into `visited`, so fuel `|voters| + 1` reproduces the
source. -/
def getTotalDelegatedPointsAux (s : DSState) :
    Nat → String → List String → Int × List String
  | 0, _, visited => (0, visited)
  | fuel + 1, user_id, visited =>
    if user_id ∈ visited then (0, visited)
    else
      let visited := user_id :: visited
      (getDelegationsTo s user_id).foldl
        (fun acc d =>
          let r := getTotalDelegatedPointsAux s fuel d.1 acc.2
          (acc.1 + d.2 + r.1, r.2))
        (0, visited)

/-- `get_total_delegated_points(user_id)` with a fresh `visited` set. -/
def getTotalDelegatedPoints (s : DSState) (user_id : String) : Int :=
  (getTotalDelegatedPointsAux s (s.voters.length + 1) user_id []).1

/-- `DelegationSystem._reset_subdelegations`, over the modelled
`get_delegations_from` and `_remove_delegation`: depth-first removal of
every outgoing delegation of `user_id`, children first, sharing one
`visited` set. -/
def resetSubdelegationsAux :
    Nat → DSState → String → List String → DSState × List String
  | 0, st, _, visited => (st, visited)
  | fuel + 1, st, user_id, visited =>
    if user_id ∈ visited then (st, visited)
    else
      let visited := user_id :: visited
      (getDelegationsFrom st user_id).foldl
        (fun acc d =>
          let r := resetSubdelegationsAux fuel acc.1 d.1 acc.2
          ((removeDelegation r.1 user_id d.1).2, r.2))
        (st, visited)

/-- The `revoke_delegation` in effect (source, lines 414-432): compute the
recoverable total, remove the direct edge, recursively reset the
receiver's subdelegations, credit the total to the delegator.  Returns
`(success, total_points_recovered)` with the resulting state. -/
def revokeDelegation (s : DSState) (from_id to_id : String) :
    Bool × Int × DSState :=
  let points_to_recover := getTotalDelegatedPoints s to_id
  let r := removeDelegation s from_id to_id
  if !r.1 then (false, 0, s)
  else
    let s1 := r.2
    let s2 := (resetSubdelegationsAux (s1.voters.length + 1) s1 to_id []).1
    let s3 := modifyVoter s2 from_id fun v =>
      { v with available_points := v.available_points + points_to_recover }
    (true, points_to_recover, s3)

/-! ## Proposals and voting (`src/voting.py`) -/

/-- `ProposalState` enum. -/
inductive ProposalState where
  | DRAFT | GATHERING | DEBATE | VOTING | APPROVED
  | REJECTED | PUBLISHED | ABANDONED | CLEANUP
deriving DecidableEq, Repr, Fintype

/-- `Proposal._is_valid_state_transition`: the `valid_transitions` dict;
states without an entry (`.get(state, [])`) allow nothing. -/
def isValidStateTransition (current new_state : ProposalState) : Bool :=
  let allowed : List ProposalState :=
    match current with
    | .DRAFT => [.GATHERING, .ABANDONED]
    | .GATHERING => [.DEBATE, .ABANDONED]
    | .DEBATE => [.VOTING, .ABANDONED]
    | .VOTING => [.APPROVED, .REJECTED, .ABANDONED]
    | .CLEANUP => [.ABANDONED]
    | _ => []
  decide (new_state ∈ allowed)

/-- An entry of `Proposal.article_requirements`; `get_group_requirements`
only reads `required_voters`.  `float('-inf')` sentinels are the bottom of
`WithBot Int`. -/
structure ArticleReq where
  required_voters : WithBot Int
deriving DecidableEq

/-- The fields of `Proposal` the specified behaviour reads or writes.
Locks, the embedded `Constitution` handle, thresholds-of-abandonment and
the modification history are presentation or reaper state not touched by
the claims under verification.  Times are abstract integer instants. -/
structure Proposal where
  owner_id : String := ""
  title : String := ""
  state : ProposalState := .DRAFT
  supporters : List (String × Int) := []
  opponents : List (String × Int) := []
  required_voters : Int := 0
  min_participation : Int := 0
  deadline : Option Int := none
  last_activity : Int := 0
  last_state_change : Int := 0
  article_votes : List (String × List (String × Int)) := []
  article_requirements : List (String × ArticleReq) := []
deriving DecidableEq

/-- `Proposal.change_state` (the body guarded by `state_lock`). -/
def changeState (p : Proposal) (new_state : ProposalState) (now : Int) :
    Bool × Proposal :=
  if isValidStateTransition p.state new_state then
    (true, { p with state := new_state, last_state_change := now })
  else
    (false, p)

/-- Python's `max(reqs, key=...)`: keeps the first maximal element. -/
def pyMaxReq (first : ArticleReq) (rest : List ArticleReq) : ArticleReq :=
  rest.foldl (fun best r => if best.required_voters < r.required_voters then r else best) first

/-- `Proposal.get_group_requirements`: `None` on an empty group, else the
most demanding requirement, defaulting a missing article to
`{'required_voters': 0}`. -/
def getGroupRequirements (p : Proposal) (group : List String) : Option ArticleReq :=
  match group with
  | [] => none
  | g0 :: rest =>
    let req := fun aid => (alookup p.article_requirements aid).getD ⟨(0 : Int)⟩
    some (pyMaxReq (req g0) (rest.map req))

/-- `Proposal.validate_group_vote`: `points >= req['required_voters']`. -/
def validateGroupVote (p : Proposal) (group : List String) (points : Int) : Bool :=
  match getGroupRequirements p group with
  | none => false
  | some req => decide (req.required_voters ≤ (points : WithBot Int))

/-- `VotingSystem` state: the `proposals` dict.  Executor, locks and file
persistence are omitted. -/
structure VotingSystem where
  proposals : List (String × Proposal) := []
deriving DecidableEq

/-- One iteration of the distribution loop in
`VotingSystem.commit_points`: article `pr.2` at enumeration index `pr.1`
gets `points // n` plus one extra point while `pr.1 < points % n`, stored
as `±art_points` under the voter's key (`setdefault` then assignment). -/
def commitVoteStep (voter_id : String) (support : Bool)
    (points_per_article remainder : Int) (p : Proposal) (pr : Nat × String) :
    Proposal :=
  let art_points := points_per_article + (if (pr.1 : Int) < remainder then 1 else 0)
  let votes := (alookup p.article_votes pr.2).getD []
  let votes := aset votes voter_id (if support then art_points else -art_points)
  { p with article_votes := aset p.article_votes pr.2 votes }

/-- `VotingSystem.commit_points` (the body guarded by the proposal lock):
distribute `points` as evenly as possible over the group in iteration
order (`points // n` each, one extra for the first `points % n`), record
`±art_points` keyed by voter (overwriting), refresh `last_activity`. -/
def commitPoints (vs : VotingSystem) (now : Int) (proposal_id voter_id : String)
    (article_group : List String) (points : Int) (support : Bool) :
    Bool × VotingSystem :=
  match alookup vs.proposals proposal_id with
  | none => (false, vs)
  | some proposal =>
    if !validateGroupVote proposal article_group points then (false, vs)
    else
      let n : Int := article_group.length
      let points_per_article := points.ediv n
      let remainder := points.emod n
      let proposal := article_group.enum.foldl
        (commitVoteStep voter_id support points_per_article remainder) proposal
      let proposal := { proposal with last_activity := now }
      (true, { vs with proposals := aset vs.proposals proposal_id proposal })

/-- The `can_close_proposal` in effect (the later `async` definition,
source lines 471-489).  `none` models the `TypeError` Python raises when
comparing `datetime.now()` against a `None` deadline. -/
def canCloseProposal (vs : VotingSystem) (now : Int) (proposal_id : String) :
    Option Bool :=
  match alookup vs.proposals proposal_id with
  | none => some false
  | some p =>
    if p.state ≠ ProposalState.VOTING then some false
    else
      match p.deadline with
      | none => none
      | some d =>
        if now < d then some false
        else
          let total_support := (p.supporters.map (·.2)).sum
          let total_votes := total_support + (p.opponents.map (·.2)).sum
          some (decide (total_support ≥ p.required_voters ∧
                        total_votes ≥ p.min_participation))

/-- An engine holding both subsystems.  `src/voting.py` neither imports nor
references `src/delegation.py`, so `commit_points` acts on the voting half
only. -/
structure EngineState where
  delegation : DSState
  voting : VotingSystem
deriving DecidableEq

/-- `commit_points` as seen from the whole engine. -/
def commitPointsGlobal (g : EngineState) (now : Int) (proposal_id voter_id : String)
    (article_group : List String) (points : Int) (support : Bool) :
    Bool × EngineState :=
  let r := commitPoints g.voting now proposal_id voter_id article_group points support
  (r.1, { g with voting := r.2 })

/-! ## Articles and requirements (`src/constitution.py`, `src/utility.py`) -/

/-- One entry of an article's `history` list; only `voters_participated`
is read by the requirement computation. -/
structure HistEntry where
  voters_participated : Int := 0
deriving DecidableEq

/-- A requirements dict: the cached shape carries `last_calculation`, the
article-"0" sentinel instead carries `immutable`. -/
structure ReqInfo where
  required_voters : WithBot Int
  min_participation : Int
  previous_voters : Int
  last_calculation : Option Int := none
  immutable : Bool := false
deriving DecidableEq

/-- An article of the constitution (text/version fields omitted). -/
structure ConstArticle where
  history : List HistEntry := []
  cached_requirements : Option ReqInfo := none
deriving DecidableEq

/-- `Constitution` state: the `articles` dict. -/
structure Constitution where
  articles : List (String × ConstArticle) := []
deriving DecidableEq

/-- `Constitution._recalculate_requirements`.  The numeric formulas
`calculate_required_voters` / `calculate_minimum_participation`
(`src/utility.py`) compute with IEEE-754 doubles (`math.log`, float
division), so they enter the embedding as parameters; every theorem below
holds for all choices of them. -/
def recalculateRequirements (calcReq : Int → WithBot Int) (calcPart : Int → Int)
    (now : Int) (c : Constitution) (article_id : String) : Constitution :=
  match alookup c.articles article_id with
  | none => c
  | some article =>
    let previous_voters :=
      match article.history.getLast? with
      | none => 0
      | some h => h.voters_participated
    let info : ReqInfo :=
      { required_voters := calcReq previous_voters,
        min_participation := calcPart previous_voters,
        previous_voters := previous_voters,
        last_calculation := some now }
    let article := { article with cached_requirements := some info }
    { c with articles := aset c.articles article_id article }

/-- `Constitution.get_article_requirements`.  Article `"0"` short-circuits
to the fixed sentinel `{'required_voters': float('-inf'),
'min_participation': 0, 'previous_voters': 0, 'immutable': True}` before
any state is consulted; other articles go through the 7-day cache
(`cache_duration` abstracted as an integer parameter). -/
def getArticleRequirements (calcReq : Int → WithBot Int) (calcPart : Int → Int)
    (cache_duration now : Int) (c : Constitution) (article_id : String) :
    Option ReqInfo × Constitution :=
  if article_id = "0" then
    (some { required_voters := ⊥, min_participation := 0, previous_voters := 0,
            immutable := true }, c)
  else
    match alookup c.articles article_id with
    | none => (none, c)
    | some article =>
      match article.cached_requirements with
      | none => (none, c)
      | some cached =>
        let stale :=
          match cached.last_calculation with
          | none => false
          | some lc => now - lc > cache_duration
        if stale then
          let c' := recalculateRequirements calcReq calcPart now c article_id
          ((alookup c'.articles article_id).bind (·.cached_requirements), c')
        else
          (some cached, c)

/-! ## Ledger invariant and concrete scenarios -/

/-- Sum of the points a voter has delegated away. -/
def delegSum (v : Voter) : Int := (v.delegations.map (·.2.points)).sum

/-- The spec's per-voter budget equation:
`available_points + reserved_points + sum(delegations[*].points) == base_points`. -/
def voterBalanced (v : Voter) : Prop :=
  v.available_points + RESERVED_POINTS + delegSum v = v.base_points

/-- The budget equation for every voter of the ledger. -/
def Balanced (s : DSState) : Prop := ∀ pr ∈ s.voters, voterBalanced pr.2

/-- All dicts of the state have distinct keys (always true of Python dicts). -/
def WFState (s : DSState) : Prop :=
  NodupKeys s.voters ∧
  ∀ pr ∈ s.voters, NodupKeys pr.2.delegations ∧ NodupKeys pr.2.received_points

instance : DecidablePred voterBalanced := fun v => by
  unfold voterBalanced; infer_instance

instance (s : DSState) : Decidable (Balanced s) := by
  unfold Balanced; infer_instance

instance (s : DSState) : Decidable (WFState s) := by
  unfold WFState NodupKeys; infer_instance

/-- Fresh system with voters `A`, `B`, `C` (in that order). -/
def sysABC : DSState := (addVoter (addVoter (addVoter ⟨[]⟩ "A").2 "B").2 "C").2

/-- Spec §8 scenario, step 1: `delegate(A, B, 500, subdelegable=True)`. -/
def c4step1 : Bool × DSState := delegatePoints sysABC "A" "B" 500 true

/-- Spec §8 scenario, step 2: `delegate(B, C, 300)`. -/
def c4step2 : Bool × DSState := delegatePoints c4step1.2 "B" "C" 300 false

/-- The state right after the third delegation's edge update, immediately
before cycle resolution runs. -/
def c4mid : DSState := applyDelegation c4step2.2 "C" "A" 200 false

/-- Spec §8 scenario, step 3: `delegate(C, A, 200)` (triggers resolution). -/
def c4step3 : Bool × DSState := delegatePoints c4step2.2 "C" "A" 200 false

/-! ## Claim C5 — delegation validation -/

/-- C5: `delegate_points(from, to, points, subdelegable)` returns a failed
result, with every voter record left unchanged, exactly when `from` or
`to` is unknown, `points <= 0`, or `points` exceeds
`available_points(from) - reserved_points(from)` (the source's
`get_delegatable_points`); on failure nothing is mutated. -/
theorem C5_delegate_validation :
    ∀ (s : DSState) (f t : String) (p : Int) (sub : Bool),
      ((delegatePoints s f t p sub).1 = false ↔
        getVoter s f = none ∨ getVoter s t = none ∨ p ≤ 0 ∨
          p > ((getVoter s f).map Voter.get_delegatable_points).getD 0) ∧
      ((delegatePoints s f t p sub).1 = false →
        (delegatePoints s f t p sub).2 = s) := by
  intro s f t p sub
  cases hf : alookup s.voters f with
  | none => simp [delegatePoints, getVoter, hf]
  | some d =>
    cases ht : alookup s.voters t with
    | none => simp [delegatePoints, getVoter, hf, ht]
    | some w =>
      by_cases hc : p > d.get_delegatable_points ∨ p ≤ 0
      · simp only [delegatePoints, getVoter, hf, ht, if_pos hc,
          Option.map_some', Option.getD_some]
        constructor
        · constructor
          · intro _
            rcases hc with hc | hc
            · exact Or.inr (Or.inr (Or.inr hc))
            · exact Or.inr (Or.inr (Or.inl hc))
          · intro _; trivial
        · intro _; trivial
      · simp only [delegatePoints, getVoter, hf, ht, if_neg hc,
          Option.map_some', Option.getD_some]
        push_neg at hc
        constructor
        · simp only [Bool.true_eq_false, false_iff]
          push_neg
          exact ⟨Option.some_ne_none d, Option.some_ne_none w, hc.2, hc.1⟩
        · intro h
          exact absurd h (by simp)

/-- C5 witness: in the empty ledger the delegation fails and the state is
returned untouched. -/
theorem C5_delegate_validation_witness :
    (delegatePoints ⟨[]⟩ "A" "B" 5 false).2 = ⟨[]⟩ :=
  (C5_delegate_validation ⟨[]⟩ "A" "B" 5 false).2 (by decide)

/-! ## Claim C6 — proposal state transitions -/

/-- C6 (amended): `change_state` succeeds exactly for the listed pairs and
an illegal transition is a failure that leaves the state unchanged and
raises nothing; but `change_state` applies no deadline/quorum gate — the
deadline, `required_voters` and `min_participation` conditions are checked
only by the separate query `can_close_proposal`, which performs no
transition. -/
theorem C6_transition_table :
    ∀ (p : Proposal) (target : ProposalState) (now : Int),
      ((changeState p target now).1 = true ↔
        ((p.state = .DRAFT ∧ (target = .GATHERING ∨ target = .ABANDONED)) ∨
         (p.state = .GATHERING ∧ (target = .DEBATE ∨ target = .ABANDONED)) ∨
         (p.state = .DEBATE ∧ (target = .VOTING ∨ target = .ABANDONED)) ∨
         (p.state = .VOTING ∧
           (target = .APPROVED ∨ target = .REJECTED ∨ target = .ABANDONED)) ∨
         (p.state = .CLEANUP ∧ target = .ABANDONED))) ∧
      ((changeState p target now).1 = false →
        (changeState p target now).2 = p) ∧
      (∀ (vs : VotingSystem) (pid : String) (pr : Proposal) (d : Int),
        alookup vs.proposals pid = some pr → pr.deadline = some d →
        (canCloseProposal vs now pid = some true ↔
          (pr.state = .VOTING ∧ d ≤ now ∧
           (pr.supporters.map (·.2)).sum ≥ pr.required_voters ∧
           (pr.supporters.map (·.2)).sum + (pr.opponents.map (·.2)).sum ≥
             pr.min_participation))) := by
  intro p target now
  have key : ∀ st tg : ProposalState, isValidStateTransition st tg = true ↔
      ((st = .DRAFT ∧ (tg = .GATHERING ∨ tg = .ABANDONED)) ∨
       (st = .GATHERING ∧ (tg = .DEBATE ∨ tg = .ABANDONED)) ∨
       (st = .DEBATE ∧ (tg = .VOTING ∨ tg = .ABANDONED)) ∨
       (st = .VOTING ∧ (tg = .APPROVED ∨ tg = .REJECTED ∨ tg = .ABANDONED)) ∨
       (st = .CLEANUP ∧ tg = .ABANDONED)) := by decide
  refine ⟨?_, ?_, ?_⟩
  · rw [← key]
    unfold changeState
    by_cases hb : isValidStateTransition p.state target = true
    · simp [hb]
    · simp [hb]
  · unfold changeState
    by_cases hb : isValidStateTransition p.state target = true
    · simp [hb]
    · simp only [Bool.not_eq_true] at hb
      simp [hb]
  · intro vs pid pr d hpr hd
    unfold canCloseProposal
    rw [hpr]
    dsimp only
    by_cases hst : pr.state = ProposalState.VOTING
    · rw [if_neg (by simp [hst]), hd]
      dsimp only
      by_cases hnd : now < d
      · rw [if_pos hnd]
        constructor
        · intro h
          exact absurd h (by simp)
        · intro h
          exact absurd h.2.1 (by omega)
      · rw [if_neg hnd]
        constructor
        · intro h
          simp only [Option.some.injEq, decide_eq_true_eq] at h
          exact ⟨hst, by omega, h.1, h.2⟩
        · intro h
          simp only [Option.some.injEq, decide_eq_true_eq]
          exact ⟨h.2.2.1, h.2.2.2⟩
    · rw [if_pos (by simp [hst])]
      constructor
      · intro h
        exact absurd h (by simp)
      · intro h
        exact absurd h.1 hst

/-- A VOTING proposal whose deadline (instant 100) has not passed at
instant 0 and whose quorum (5) and participation (3) thresholds are unmet. -/
def c6prop : Proposal :=
  { state := .VOTING, required_voters := 5, min_participation := 3,
    deadline := some 100 }

/-- A proposal in the terminal PUBLISHED state. -/
def c6pub : Proposal := { state := .PUBLISHED }

/-- A voting system holding `c6prop` under id `"p1"`. -/
def c6vs : VotingSystem := ⟨[("p1", c6prop)]⟩

/-- C6 witness: a VOTING proposal with an unexpired deadline and no votes
still transitions to APPROVED through `change_state`, while
`can_close_proposal` reports it cannot close; and an illegal
PUBLISHED→VOTING transition fails leaving the state as it was. -/
theorem C6_transition_table_witness :
    (changeState c6prop .APPROVED 0).1 = true ∧
    (changeState c6pub .VOTING 0).2 = c6pub ∧
    canCloseProposal c6vs 0 "p1" = some false := by
  refine ⟨?_, ?_, ?_⟩
  · exact (C6_transition_table c6prop .APPROVED 0).1.2 (by decide)
  · exact (C6_transition_table c6pub .VOTING 0).2.1 (by decide)
  · have h := (C6_transition_table c6prop .APPROVED 0).2.2 c6vs "p1" c6prop 100
      (by decide) (by decide)
    cases hcc : canCloseProposal c6vs 0 "p1" with
    | none => exact absurd hcc (by decide)
    | some b =>
      cases b with
      | true =>
        have h2 := h.1 hcc
        exact absurd h2.2.1 (by decide)
      | false => rfl

/-- C6 counterexample: the claim's last conjunct fails — a VOTING proposal
whose deadline has not passed and whose quorum and participation are
unmet still moves to APPROVED via `change_state`. -/
theorem C6_counterexample :
    (changeState c6prop .APPROVED 0).1 = true ∧
    canCloseProposal c6vs 0 "p1" = some false := by
  decide

/-! ## Claim C8 — the article "0" sentinel -/

/-- A proposal whose article "0" requirement entry is the constitution's
sentinel `float('-inf')`. -/
def c8prop : Proposal := { article_requirements := [("0", ⟨(⊥ : WithBot Int)⟩)] }

/-- C8: the first half of the claim holds — `get_article_requirements("0")`
short-circuits to the fixed sentinel for every constitution state, history
and requirement formula, mutating nothing — but the sentinel is
`float('-inf')`, and every satisfaction check in the code base compares
`total >= required_voters`, so every finite total (even 0 points through
`validate_group_vote`) satisfies article "0"'s requirement, contradicting
the claim's "no finite total ever satisfies it". -/
theorem C8_article_zero_sentinel :
    (∀ (calcReq : Int → WithBot Int) (calcPart : Int → Int)
        (cd now : Int) (c : Constitution),
      getArticleRequirements calcReq calcPart cd now c "0" =
        (some { required_voters := ⊥, min_participation := 0,
                previous_voters := 0, immutable := true }, c)) ∧
    (∀ points : Int, validateGroupVote c8prop ["0"] points = true) := by
  constructor
  · intro calcReq calcPart cd now c
    unfold getArticleRequirements
    rw [if_pos rfl]
  · intro points
    show decide ((⊥ : WithBot Int) ≤ (points : WithBot Int)) = true
    exact decide_eq_true bot_le

/-! ## Claim C4 — the concrete cycle-resolution scenario -/

/-- C4 (amended): in the A→B 500 (subdelegable), B→C 300, C→A 200 scenario
every delegation call succeeds, and the cycle resolution triggered by the
third call subtracts the cycle minimum 200 from every edge: the edges
become A→B 300 and B→C 100, the C→A edge is removed, the cycle amount 200
is credited to C (the voter whose call triggered detection, the detected
cycle's origin), and A's available points are unchanged from immediately
before resolution. -/
theorem C4_cycle_scenario :
    c4step1.1 = true ∧ c4step2.1 = true ∧ c4step3.1 = true ∧
    edgePoints c4step3.2 "A" "B" = some 300 ∧
    edgePoints c4step3.2 "B" "C" = some 100 ∧
    edgePoints c4step3.2 "C" "A" = none ∧
    availOf c4step3.2 "C" = (availOf c4mid "C").map (· + 200) ∧
    availOf c4step3.2 "A" = availOf c4mid "A" := by
  decide

/-- C4 counterexample: the claim's predicted outcome — edges A→B 500 and
B→C 300 kept intact, C→A removed, and A's available points 200 higher than
immediately before resolution — is false of the state the code produces. -/
theorem C4_counterexample :
    ¬(edgePoints c4step3.2 "A" "B" = some 500 ∧
      edgePoints c4step3.2 "B" "C" = some 300 ∧
      edgePoints c4step3.2 "C" "A" = none ∧
      availOf c4step3.2 "A" = (availOf c4mid "A").map (· + 200)) := by
  decide

/-! ## Claim C1 — the voter budget invariant -/

/-- C1 counterexample: after the reachable operation sequence `add_voter`
A, B, C; `delegate(A,B,500,subdelegable)`; `delegate(B,C,300)`;
`delegate(C,A,200)` — all of which succeed — voter A's budget equation is
violated: `available + reserved + Σ delegations = 498 + 2 + 300 = 800`,
not `base_points = 1000` (cycle resolution reduced A's outgoing edge by
200 without crediting A). -/
theorem C1_counterexample :
    c4step3.1 = true ∧
    (getVoter c4step3.2 "A").map
        (fun v => v.available_points + RESERVED_POINTS + delegSum v) = some 800 ∧
    ¬ Balanced c4step3.2 := by
  refine ⟨by decide, by decide, by decide⟩

/-! ## Claims C10 and C7 — commit_points -/

theorem commitFold_fields (voter_id : String) (support : Bool) (ppa rem : Int) :
    ∀ (l : List (Nat × String)) (p : Proposal),
      let q := l.foldl (commitVoteStep voter_id support ppa rem) p
      q.owner_id = p.owner_id ∧ q.title = p.title ∧ q.state = p.state ∧
      q.supporters = p.supporters ∧ q.opponents = p.opponents ∧
      q.required_voters = p.required_voters ∧
      q.min_participation = p.min_participation ∧
      q.deadline = p.deadline ∧ q.last_activity = p.last_activity ∧
      q.last_state_change = p.last_state_change ∧
      q.article_requirements = p.article_requirements := by
  intro l
  induction l with
  | nil =>
    intro p
    exact ⟨rfl, rfl, rfl, rfl, rfl, rfl, rfl, rfl, rfl, rfl, rfl⟩
  | cons hd t ih =>
    intro p
    exact ih (commitVoteStep voter_id support ppa rem p hd)

theorem commitFold_votes_frame (voter_id : String) (support : Bool) (ppa rem : Int) :
    ∀ (l : List (Nat × String)) (p : Proposal) (aid : String),
      aid ∉ l.map Prod.snd →
      alookup (l.foldl (commitVoteStep voter_id support ppa rem) p).article_votes aid =
        alookup p.article_votes aid := by
  intro l
  induction l with
  | nil => intro p aid _; rfl
  | cons hd t ih =>
    intro p aid haid
    simp only [List.map_cons, List.mem_cons, not_or] at haid
    rw [List.foldl_cons, ih _ _ haid.2]
    show alookup (aset p.article_votes hd.2 _) aid = alookup p.article_votes aid
    exact alookup_aset_ne _ _ haid.1

theorem commitFold_votes_value (voter_id : String) (support : Bool) (ppa rem : Int) :
    ∀ (l : List (Nat × String)) (p : Proposal),
      (l.map Prod.snd).Nodup →
      ∀ pr ∈ l,
        alookup ((alookup
            (l.foldl (commitVoteStep voter_id support ppa rem) p).article_votes
            pr.2).getD []) voter_id =
          some (if support
                then ppa + (if (pr.1 : Int) < rem then 1 else 0)
                else -(ppa + (if (pr.1 : Int) < rem then 1 else 0))) := by
  intro l
  induction l with
  | nil => intro p _ pr hpr; exact absurd hpr (List.not_mem_nil pr)
  | cons hd t ih =>
    intro p hnd pr hpr
    simp only [List.map_cons, List.nodup_cons] at hnd
    rcases List.mem_cons.1 hpr with heq | hmem
    · subst heq
      rw [List.foldl_cons,
        commitFold_votes_frame voter_id support ppa rem t _ pr.2 hnd.1]
      show alookup ((alookup (aset p.article_votes pr.2 _) pr.2).getD []) voter_id = _
      rw [alookup_aset_self]
      show alookup (aset _ voter_id _) voter_id = _
      rw [alookup_aset_self]
    · rw [List.foldl_cons]
      exact ih _ hnd.2 pr hmem

/-- C10: `commit_points` never consults or modifies the delegation ledger —
the delegation component of the engine is returned untouched for every
call and neither its result nor its effect depends on any voter's points;
only the target proposal's `article_votes` and `last_activity` change
(every other proposal and every other field of the target proposal is
preserved), and no check of the committing voter's point holdings exists. -/
theorem C10_commit_frame :
    ∀ (g : EngineState) (now : Int) (pid voter : String) (group : List String)
      (points : Int) (support : Bool),
      (commitPointsGlobal g now pid voter group points support).2.delegation =
        g.delegation ∧
      ((commitPointsGlobal g now pid voter group points support).1 =
        (commitPoints g.voting now pid voter group points support).1) ∧
      (∀ qid, qid ≠ pid →
        alookup (commitPoints g.voting now pid voter group points
          support).2.proposals qid = alookup g.voting.proposals qid) ∧
      (∀ p, alookup g.voting.proposals pid = some p →
        ∀ p', alookup (commitPoints g.voting now pid voter group points
            support).2.proposals pid = some p' →
          p'.owner_id = p.owner_id ∧ p'.title = p.title ∧ p'.state = p.state ∧
          p'.supporters = p.supporters ∧ p'.opponents = p.opponents ∧
          p'.required_voters = p.required_voters ∧
          p'.min_participation = p.min_participation ∧
          p'.deadline = p.deadline ∧
          p'.last_state_change = p.last_state_change ∧
          p'.article_requirements = p.article_requirements) := by
  intro g now pid voter group points support
  refine ⟨rfl, rfl, ?_, ?_⟩
  · intro qid hqid
    cases hp : alookup g.voting.proposals pid with
    | none => simp [commitPoints, hp]
    | some proposal =>
      cases hv : validateGroupVote proposal group points with
      | false => simp [commitPoints, hp, hv]
      | true =>
        simp only [commitPoints, hp, hv, Bool.not_true, Bool.false_eq_true,
          if_false]
        exact alookup_aset_ne _ _ hqid
  · intro p hp' p' hp2
    cases hv : validateGroupVote p group points with
    | false =>
      simp only [commitPoints, hp', hv, Bool.not_false, if_true] at hp2
      injection hp2 with hp2
      subst hp2
      exact ⟨rfl, rfl, rfl, rfl, rfl, rfl, rfl, rfl, rfl, rfl⟩
    | true =>
      simp only [commitPoints, hp', hv, Bool.not_true, Bool.false_eq_true,
        if_false] at hp2
      rw [alookup_aset_self] at hp2
      injection hp2 with hp2
      subst hp2
      have hf := commitFold_fields voter support
        (points.ediv group.length) (points.emod group.length)
        group.enum p
      exact ⟨hf.1, hf.2.1, hf.2.2.1, hf.2.2.2.1, hf.2.2.2.2.1,
        hf.2.2.2.2.2.1, hf.2.2.2.2.2.2.1, hf.2.2.2.2.2.2.2.1,
        hf.2.2.2.2.2.2.2.2.2.1, hf.2.2.2.2.2.2.2.2.2.2⟩

/-- C10 witness: a concrete commit against a one-proposal engine leaves the
delegation ledger and every non-target field untouched. -/
theorem C10_commit_frame_witness :
    (commitPoints (⟨[("p1", c6prop)]⟩ : VotingSystem) 7 "p1" "v" ["a"] 4
      true).2.proposals.length = 1 ∧
    (commitPointsGlobal ⟨sysABC, ⟨[("p1", c6prop)]⟩⟩ 7 "p1" "v" ["a"] 4
      true).2.delegation = sysABC := by
  constructor
  · decide
  · have h := C10_commit_frame ⟨sysABC, ⟨[("p1", c6prop)]⟩⟩ 7 "p1" "v" ["a"] 4 true
    exact h.1

/-- A proposal still in DRAFT (its `article_requirements` are empty, so
every group defaults to requirement 0). -/
def c7draft : Proposal := { state := ProposalState.DRAFT }

/-- A voting system holding `c7draft` under id `"p1"`. -/
def c7vs : VotingSystem := ⟨[("p1", c7draft)]⟩

/-- C7 (amended): `commit_points` succeeds iff the proposal exists and
`points` meets the group requirement of `validate_group_vote` (the maximum
`required_voters` among the group's articles, missing articles defaulting
to 0) — the proposal's state is never checked, so commits succeed in any
state, not only VOTING.  On success each article in the group receives
`points // |group|` plus one extra point for the first `points % |group|`
articles in iteration order, recorded in `article_votes[article][voter]`
as `+x` for support and `-x` for opposition, overwriting any previous
entry by the same voter. -/
theorem C7_commit_distribution :
    ∀ (vs : VotingSystem) (now : Int) (pid voter : String) (group : List String)
      (points : Int) (support : Bool),
      ((commitPoints vs now pid voter group points support).1 = true ↔
        ∃ p, alookup vs.proposals pid = some p ∧
          validateGroupVote p group points = true) ∧
      (∀ p, alookup vs.proposals pid = some p →
        validateGroupVote p group points = true → group.Nodup →
        ∃ p', alookup (commitPoints vs now pid voter group points
            support).2.proposals pid = some p' ∧
          p'.last_activity = now ∧
          ∀ i (hi : i < group.length),
            alookup ((alookup p'.article_votes (group.get ⟨i, hi⟩)).getD [])
                voter =
              some (if support
                    then points.ediv group.length +
                      (if (i : Int) < points.emod group.length then 1 else 0)
                    else -(points.ediv group.length +
                      (if (i : Int) < points.emod group.length then 1 else 0)))) := by
  intro vs now pid voter group points support
  constructor
  · cases hp : alookup vs.proposals pid with
    | none =>
      simp only [commitPoints, hp]
      constructor
      · intro h
        exact absurd h (by simp)
      · intro ⟨p, hp', _⟩
        exact absurd hp' (by simp)
    | some proposal =>
      cases hv : validateGroupVote proposal group points with
      | false =>
        simp only [commitPoints, hp, hv, Bool.not_false, if_true]
        constructor
        · intro h
          exact absurd h (by simp)
        · intro ⟨p, hp', hv'⟩
          injection hp' with hp'
          subst hp'
          rw [hv] at hv'
          exact absurd hv' (by simp)
      | true =>
        simp only [commitPoints, hp, hv, Bool.not_true, Bool.false_eq_true,
          if_false]
        exact ⟨fun _ => ⟨proposal, rfl, hv⟩, fun _ => trivial⟩
  · intro p hp hv hnd
    simp only [commitPoints, hp, hv, Bool.not_true, Bool.false_eq_true,
      if_false]
    refine ⟨_, alookup_aset_self _ _ _, rfl, ?_⟩
    intro i hi
    have hmem : ((i, group.get ⟨i, hi⟩) : Nat × String) ∈ group.enum := by
      rw [List.mk_mem_enum_iff_getElem?]
      rw [List.getElem?_eq_getElem hi]
      rw [List.get_eq_getElem]
    have hsnd : (group.enum.map Prod.snd).Nodup := by
      rw [List.enum_map_snd]
      exact hnd
    have hval := commitFold_votes_value voter support
      (points.ediv group.length) (points.emod group.length)
      group.enum p hsnd (i, group.get ⟨i, hi⟩) hmem
    exact hval

/-- C7 witness: committing 5 support points over the two-article group
`["a1", "a2"]` of a DRAFT proposal succeeds and records 3 points on the
first article and 2 on the second for the voter. -/
theorem C7_commit_distribution_witness :
    (commitPoints c7vs 7 "p1" "v" ["a1", "a2"] 5 true).1 = true ∧
    ∃ p', alookup (commitPoints c7vs 7 "p1" "v" ["a1", "a2"] 5
        true).2.proposals "p1" = some p' ∧
      alookup ((alookup p'.article_votes "a1").getD []) "v" = some 3 ∧
      alookup ((alookup p'.article_votes "a2").getD []) "v" = some 2 := by
  have h := C7_commit_distribution c7vs 7 "p1" "v" ["a1", "a2"] 5 true
  constructor
  · exact h.1.2 ⟨c7draft, by decide, by decide⟩
  · obtain ⟨p', hp', hact, hvals⟩ := h.2 c7draft (by decide) (by decide) (by decide)
    refine ⟨p', hp', ?_, ?_⟩
    · exact (hvals 0 (by decide)).trans (by decide)
    · exact (hvals 1 (by decide)).trans (by decide)

/-- C7 counterexample: the claim's "succeeds only when the proposal is in
the VOTING state" is false — a commit against a DRAFT proposal succeeds. -/
theorem C7_counterexample :
    c7draft.state = ProposalState.DRAFT ∧
    (commitPoints c7vs 7 "p1" "v" ["a1"] 5 true).1 = true := by
  decide

/-! ## Claim C1 — amended invariant preservation -/

theorem alookup_mem {α : Type} (l : List (String × α)) (k : String) (v : α)
    (h : alookup l k = some v) : (k, v) ∈ l := by
  induction l with
  | nil => exact absurd h (by simp [alookup])
  | cons hd t ih =>
    by_cases hk : hd.1 = k
    · unfold alookup at h
      rw [if_pos hk] at h
      injection h with h
      subst h
      subst hk
      exact List.mem_cons_self hd t
    · unfold alookup at h
      rw [if_neg hk] at h
      exact List.mem_cons_of_mem hd (ih h)

theorem mem_aset {α : Type} (l : List (String × α)) (k : String) (v : α)
    (pr : String × α) (h : pr ∈ aset l k v) : pr = (k, v) ∨ pr ∈ l := by
  induction l with
  | nil =>
    unfold aset at h
    rcases List.mem_singleton.1 h with h
    exact Or.inl h
  | cons hd t ih =>
    by_cases hk : hd.1 = k
    · unfold aset at h
      rw [if_pos hk] at h
      rcases List.mem_cons.1 h with h | h
      · exact Or.inl h
      · exact Or.inr (List.mem_cons_of_mem hd h)
    · unfold aset at h
      rw [if_neg hk] at h
      rcases List.mem_cons.1 h with h | h
      · exact Or.inr (h ▸ List.mem_cons_self hd t)
      · rcases ih h with h | h
        · exact Or.inl h
        · exact Or.inr (List.mem_cons_of_mem hd h)

theorem map_sum_aset {α : Type} (f : α → Int) (l : List (String × α))
    (k : String) (v : α) :
    ((aset l k v).map (fun pr => f pr.2)).sum =
      (l.map (fun pr => f pr.2)).sum + f v - ((alookup l k).map f).getD 0 := by
  induction l with
  | nil => simp [aset, alookup]
  | cons hd t ih =>
    by_cases hk : hd.1 = k
    · unfold aset
      rw [if_pos hk]
      unfold alookup
      rw [if_pos hk]
      simp only [List.map_cons, List.sum_cons, Option.map_some', Option.getD_some]
      ring
    · unfold aset
      rw [if_neg hk]
      unfold alookup
      rw [if_neg hk]
      simp only [List.map_cons, List.sum_cons, ih]
      ring

theorem delegSum_applyDelegation (dl : List (String × DelegInfo)) (t : String)
    (p : Int) (sub : Bool) :
    ((amodify (if (alookup dl t).isNone then aset dl t ⟨0, sub⟩ else dl) t
        (fun i => { i with points := i.points + p })).map
      (fun pr => pr.2.points)).sum = (dl.map (fun pr => pr.2.points)).sum + p := by
  cases hdl : alookup dl t with
  | some i =>
    simp only [hdl, Option.isNone_some, Bool.false_eq_true, if_false]
    unfold amodify
    rw [hdl]
    dsimp only
    rw [map_sum_aset (fun j : DelegInfo => j.points)]
    rw [hdl]
    simp only [Option.map_some', Option.getD_some]
    ring
  | none =>
    simp only [hdl, Option.isNone_none, if_true]
    unfold amodify
    rw [alookup_aset_self]
    dsimp only
    rw [map_sum_aset (fun j : DelegInfo => j.points),
      map_sum_aset (fun j : DelegInfo => j.points)]
    rw [hdl, alookup_aset_self]
    simp only [Option.map_none', Option.getD_none, Option.map_some',
      Option.getD_some]
    ring

theorem nodup_applyDelegation (dl : List (String × DelegInfo)) (t : String)
    (p : Int) (sub : Bool) (h : NodupKeys dl) :
    NodupKeys (amodify (if (alookup dl t).isNone then aset dl t ⟨0, sub⟩ else dl) t
      (fun i => { i with points := i.points + p })) := by
  have hbase : NodupKeys (if (alookup dl t).isNone then aset dl t ⟨0, sub⟩ else dl) := by
    by_cases hn : (alookup dl t).isNone
    · rw [if_pos hn]
      exact nodupKeys_aset dl t _ h
    · rw [if_neg hn]
      exact h
  unfold amodify
  cases hl : alookup (if (alookup dl t).isNone then aset dl t ⟨0, sub⟩ else dl) t with
  | none => exact hbase
  | some i => exact nodupKeys_aset _ t _ hbase


theorem applyDelegationFrom_preserves (s : DSState) (f t : String) (p : Int)
    (sub : Bool) (hwf : WFState s) (hbal : Balanced s) :
    WFState (applyDelegationFrom s f t p sub) ∧
      Balanced (applyDelegationFrom s f t p sub) := by
  unfold applyDelegationFrom
  cases hf : alookup s.voters f with
  | none => exact ⟨hwf, hbal⟩
  | some delegator =>
    dsimp only
    have hfm := alookup_mem _ _ _ hf
    have hfwf := hwf.2 _ hfm
    have hfbal := hbal _ hfm
    dsimp only at hfwf hfbal
    constructor
    · constructor
      · exact nodupKeys_aset _ _ _ hwf.1
      · intro pr hpr
        rcases mem_aset _ _ _ _ hpr with hpr | hpr
        · rw [hpr]
          exact ⟨nodup_applyDelegation delegator.delegations t p sub hfwf.1,
            hfwf.2⟩
        · exact hwf.2 _ hpr
    · intro pr hpr
      rcases mem_aset _ _ _ _ hpr with hpr | hpr
      · rw [hpr]
        unfold voterBalanced at hfbal ⊢
        dsimp only
        have hsum := delegSum_applyDelegation delegator.delegations t p sub
        unfold delegSum
        dsimp only
        rw [hsum]
        unfold delegSum at hfbal
        omega
      · exact hbal _ hpr

theorem applyDelegationTo_preserves (s : DSState) (f t : String) (p : Int)
    (sub : Bool) (hwf : WFState s) (hbal : Balanced s) :
    WFState (applyDelegationTo s f t p sub) ∧
      Balanced (applyDelegationTo s f t p sub) := by
  unfold applyDelegationTo
  cases ht : alookup s.voters t with
  | none => exact ⟨hwf, hbal⟩
  | some receiver =>
    dsimp only
    have htm := alookup_mem _ _ _ ht
    have htwf := hwf.2 _ htm
    have htbal := hbal _ htm
    dsimp only at htwf htbal
    have hrecvwf : NodupKeys (amodify (if (alookup receiver.received_points f).isNone
        then aset receiver.received_points f ⟨0, sub⟩
        else receiver.received_points) f
        (fun i => { i with points := i.points + p })) := by
      have hbase : NodupKeys (if (alookup receiver.received_points f).isNone
          then aset receiver.received_points f ⟨0, sub⟩
          else receiver.received_points) := by
        by_cases hn : (alookup receiver.received_points f).isNone
        · rw [if_pos hn]
          exact nodupKeys_aset _ _ _ htwf.2
        · rw [if_neg hn]
          exact htwf.2
      unfold amodify
      cases alookup (if (alookup receiver.received_points f).isNone
          then aset receiver.received_points f ⟨0, sub⟩
          else receiver.received_points) f with
      | none => exact hbase
      | some i => exact nodupKeys_aset _ _ _ hbase
    constructor
    · constructor
      · exact nodupKeys_aset _ _ _ hwf.1
      · intro pr hpr
        rcases mem_aset _ _ _ _ hpr with hpr | hpr
        · rw [hpr]
          exact ⟨htwf.1, hrecvwf⟩
        · exact hwf.2 _ hpr
    · intro pr hpr
      rcases mem_aset _ _ _ _ hpr with hpr | hpr
      · rw [hpr]
        exact htbal
      · exact hbal _ hpr

theorem applyDelegation_preserves (s : DSState) (f t : String) (p : Int)
    (sub : Bool) (hwf : WFState s) (hbal : Balanced s) :
    WFState (applyDelegation s f t p sub) ∧
      Balanced (applyDelegation s f t p sub) := by
  unfold applyDelegation
  cases hf : alookup s.voters f with
  | none => exact ⟨hwf, hbal⟩
  | some delegator =>
    dsimp only
    have h1 := applyDelegationFrom_preserves s f t p sub hwf hbal
    exact applyDelegationTo_preserves _ f t p sub h1.1 h1.2

theorem delegate_no_cycle_preserves (s : DSState) (f t : String) (p : Int)
    (sub : Bool) (hwf : WFState s) (hbal : Balanced s)
    (hcyc : detectCycles (applyDelegation s f t p sub) f = []) :
    WFState (delegatePoints s f t p sub).2 ∧
      Balanced (delegatePoints s f t p sub).2 := by
  unfold delegatePoints
  cases hf : alookup s.voters f with
  | none => exact ⟨hwf, hbal⟩
  | some delegator =>
    cases ht : alookup s.voters t with
    | none => exact ⟨hwf, hbal⟩
    | some w =>
      dsimp only
      by_cases hc : p > delegator.get_delegatable_points ∨ p ≤ 0
      · rw [if_pos hc]
        exact ⟨hwf, hbal⟩
      · rw [if_neg hc]
        dsimp only
        rw [hcyc, List.foldl_nil]
        exact applyDelegation_preserves s f t p sub hwf hbal

/-- C1 (amended): the budget equation
`available_points + reserved_points + Σ delegations[*].points = base_points`
holds for every voter after `add_voter`, and is preserved by
`delegate_points` and `subdelegate_points` whenever the call triggers no
cycle resolution (`detect_cycles` finds no cycle after the edge update).
Cycle resolution breaks the equation for every non-origin voter of the
resolved cycle (see the counterexample), and the effective
`revoke_delegation` can break it by over-crediting the revoker, so the
claim's "after every completed public ledger operation" does not hold. -/
theorem C1_amended :
    (∀ (s : DSState) (id : String), WFState s → Balanced s →
      WFState (addVoter s id).2 ∧ Balanced (addVoter s id).2) ∧
    (∀ (s : DSState) (f t : String) (p : Int) (sub : Bool),
      WFState s → Balanced s →
      detectCycles (applyDelegation s f t p sub) f = [] →
      WFState (delegatePoints s f t p sub).2 ∧
        Balanced (delegatePoints s f t p sub).2) ∧
    (∀ (s : DSState) (f t : String) (p : Int),
      WFState s → Balanced s →
      detectCycles (applyDelegation s f t p false) f = [] →
      WFState (subdelegatePoints s f t p).2 ∧
        Balanced (subdelegatePoints s f t p).2) := by
  refine ⟨?_, ?_, ?_⟩
  · intro s id hwf hbal
    unfold addVoter
    by_cases hn : (alookup s.voters id).isNone
    · rw [if_pos hn]
      constructor
      · constructor
        · exact nodupKeys_aset _ _ _ hwf.1
        · intro pr hpr
          rcases mem_aset _ _ _ _ hpr with hpr | hpr
          · rw [hpr]
            exact ⟨List.nodup_nil, List.nodup_nil⟩
          · exact hwf.2 _ hpr
      · intro pr hpr
        rcases mem_aset _ _ _ _ hpr with hpr | hpr
        · rw [hpr]
          dsimp only
          decide
        · exact hbal _ hpr
    · rw [if_neg hn]
      exact ⟨hwf, hbal⟩
  · intro s f t p sub hwf hbal hcyc
    exact delegate_no_cycle_preserves s f t p sub hwf hbal hcyc
  · intro s f t p hwf hbal hcyc
    unfold subdelegatePoints
    cases hf : alookup s.voters f with
    | none => exact ⟨hwf, hbal⟩
    | some delegator =>
      cases ht : alookup s.voters t with
      | none => exact ⟨hwf, hbal⟩
      | some w =>
        dsimp only
        by_cases hc : p > min (((delegator.received_points.filter
            (·.2.subdelegable)).map (·.2.points)).sum)
            delegator.get_delegatable_points ∨ p ≤ 0
        · rw [if_pos hc]
          exact ⟨hwf, hbal⟩
        · rw [if_neg hc]
          exact delegate_no_cycle_preserves s f t p false hwf hbal hcyc

/-- C1 witness: from the fresh three-voter system, a cycle-free delegation
of 5 points and an `add_voter` both keep every voter's budget equation. -/
theorem C1_amended_witness :
    (WFState (delegatePoints sysABC "A" "B" 5 false).2 ∧
      Balanced (delegatePoints sysABC "A" "B" 5 false).2) ∧
    Balanced (addVoter sysABC "D").2 := by
  constructor
  · exact C1_amended.2.1 sysABC "A" "B" 5 false (by decide) (by decide) (by decide)
  · exact (C1_amended.1 sysABC "D" (by decide) (by decide)).2

/-! ## Claim C3 — per-cycle resolution machinery -/

/-- The delegations mapping of a voter, when the voter exists. -/
def delegationsOf (s : DSState) (v : String) : Option (List (String × DelegInfo)) :=
  (getVoter s v).map (·.delegations)

/-- The received mapping of a voter, when the voter exists. -/
def receivedOf (s : DSState) (v : String) : Option (List (String × DelegInfo)) :=
  (getVoter s v).map (·.received_points)

theorem edgePoints_eq_proj (s : DSState) (f t : String) :
    edgePoints s f t =
      (delegationsOf s f).bind (fun dl => (alookup dl t).map (·.points)) := by
  unfold edgePoints delegationsOf
  cases getVoter s f <;> rfl

theorem recvPoints_eq_proj (s : DSState) (t f : String) :
    recvPoints s t f =
      (receivedOf s t).bind (fun rl => (alookup rl f).map (·.points)) := by
  unfold recvPoints receivedOf
  cases getVoter s t <;> rfl

theorem edgePoints_congr {s1 s2 : DSState} (f t : String)
    (h : delegationsOf s1 f = delegationsOf s2 f) :
    edgePoints s1 f t = edgePoints s2 f t := by
  rw [edgePoints_eq_proj, edgePoints_eq_proj, h]

theorem recvPoints_congr {s1 s2 : DSState} (t f : String)
    (h : receivedOf s1 t = receivedOf s2 t) :
    recvPoints s1 t f = recvPoints s2 t f := by
  rw [recvPoints_eq_proj, recvPoints_eq_proj, h]

theorem getVoter_modify_ne (s : DSState) (id : String) (g : Voter → Voter)
    (v : String) (hv : v ≠ id) :
    getVoter (modifyVoter s id g) v = getVoter s v := by
  unfold modifyVoter getVoter amodify
  cases alookup s.voters id with
  | none => rfl
  | some w =>
    dsimp only
    exact alookup_aset_ne _ _ hv

theorem getVoter_modify_self (s : DSState) (id : String) (g : Voter → Voter) :
    getVoter (modifyVoter s id g) id = (getVoter s id).map g := by
  unfold modifyVoter getVoter amodify
  cases hl : alookup s.voters id with
  | none => simp [hl]
  | some w =>
    dsimp only
    rw [alookup_aset_self]
    rfl

theorem getVoter_modify_proj {β : Type} (proj : Voter → β) (g : Voter → Voter)
    (hg : ∀ w, proj (g w) = proj w) (s : DSState) (id v : String) :
    (getVoter (modifyVoter s id g) v).map proj = (getVoter s v).map proj := by
  by_cases hv : v = id
  · subst hv
    rw [getVoter_modify_self]
    cases getVoter s v with
    | none => rfl
    | some w =>
      simp only [Option.map_some']
      rw [hg]
  · rw [getVoter_modify_ne _ _ _ _ hv]

theorem WF_modifyVoter (s : DSState) (id : String) (g : Voter → Voter)
    (hg : ∀ w, NodupKeys w.delegations → NodupKeys w.received_points →
      NodupKeys (g w).delegations ∧ NodupKeys (g w).received_points)
    (hwf : WFState s) : WFState (modifyVoter s id g) := by
  unfold modifyVoter amodify
  cases hl : alookup s.voters id with
  | none => exact hwf
  | some w =>
    dsimp only
    have hm := alookup_mem _ _ _ hl
    have hw := hwf.2 _ hm
    constructor
    · exact nodupKeys_aset _ _ _ hwf.1
    · intro pr hpr
      rcases mem_aset _ _ _ _ hpr with hpr | hpr
      · rw [hpr]
        exact hg w hw.1 hw.2
      · exact hwf.2 _ hpr

theorem delegationsOf_stepSubDeleg_ne (m : Int) (f t : String) (s : DSState)
    (v : String) (hv : v ≠ f) :
    delegationsOf (stepSubDeleg m f t s) v = delegationsOf s v := by
  unfold delegationsOf stepSubDeleg
  rw [getVoter_modify_ne _ _ _ _ hv]

theorem delegationsOf_stepSubDeleg_self (m : Int) (f t : String) (s : DSState) :
    delegationsOf (stepSubDeleg m f t s) f =
      (delegationsOf s f).map
        (fun dl => amodify dl t fun i => { i with points := i.points - m }) := by
  unfold delegationsOf stepSubDeleg
  rw [getVoter_modify_self]
  cases getVoter s f <;> rfl

theorem receivedOf_stepSubDeleg (m : Int) (f t : String) (s : DSState)
    (v : String) :
    receivedOf (stepSubDeleg m f t s) v = receivedOf s v := by
  unfold receivedOf stepSubDeleg
  apply getVoter_modify_proj
  intro w
  rfl

theorem availOf_stepSubDeleg (m : Int) (f t : String) (s : DSState) (v : String) :
    availOf (stepSubDeleg m f t s) v = availOf s v := by
  unfold availOf stepSubDeleg
  apply getVoter_modify_proj
  intro w
  rfl

theorem receivedOf_stepSubRecv_ne (m : Int) (f t : String) (s : DSState)
    (v : String) (hv : v ≠ t) :
    receivedOf (stepSubRecv m f t s) v = receivedOf s v := by
  unfold receivedOf stepSubRecv
  rw [getVoter_modify_ne _ _ _ _ hv]

theorem receivedOf_stepSubRecv_self (m : Int) (f t : String) (s : DSState) :
    receivedOf (stepSubRecv m f t s) t =
      (receivedOf s t).map
        (fun rl => amodify rl f fun i => { i with points := i.points - m }) := by
  unfold receivedOf stepSubRecv
  rw [getVoter_modify_self]
  cases getVoter s t <;> rfl

theorem delegationsOf_stepSubRecv (m : Int) (f t : String) (s : DSState)
    (v : String) :
    delegationsOf (stepSubRecv m f t s) v = delegationsOf s v := by
  unfold delegationsOf stepSubRecv
  apply getVoter_modify_proj
  intro w
  rfl

theorem availOf_stepSubRecv (m : Int) (f t : String) (s : DSState) (v : String) :
    availOf (stepSubRecv m f t s) v = availOf s v := by
  unfold availOf stepSubRecv
  apply getVoter_modify_proj
  intro w
  rfl

theorem delegationsOf_stepEraseDeleg_ne (f t : String) (s : DSState)
    (v : String) (hv : v ≠ f) :
    delegationsOf (stepEraseDeleg f t s) v = delegationsOf s v := by
  unfold delegationsOf stepEraseDeleg
  rw [getVoter_modify_ne _ _ _ _ hv]

theorem delegationsOf_stepEraseDeleg_self (f t : String) (s : DSState) :
    delegationsOf (stepEraseDeleg f t s) f =
      (delegationsOf s f).map (fun dl => aerase dl t) := by
  unfold delegationsOf stepEraseDeleg
  rw [getVoter_modify_self]
  cases getVoter s f <;> rfl

theorem receivedOf_stepEraseDeleg (f t : String) (s : DSState) (v : String) :
    receivedOf (stepEraseDeleg f t s) v = receivedOf s v := by
  unfold receivedOf stepEraseDeleg
  apply getVoter_modify_proj
  intro w
  rfl

theorem availOf_stepEraseDeleg (f t : String) (s : DSState) (v : String) :
    availOf (stepEraseDeleg f t s) v = availOf s v := by
  unfold availOf stepEraseDeleg
  apply getVoter_modify_proj
  intro w
  rfl

theorem receivedOf_stepEraseRecv_ne (f t : String) (s : DSState)
    (v : String) (hv : v ≠ t) :
    receivedOf (stepEraseRecv f t s) v = receivedOf s v := by
  unfold receivedOf stepEraseRecv
  rw [getVoter_modify_ne _ _ _ _ hv]

theorem receivedOf_stepEraseRecv_self (f t : String) (s : DSState) :
    receivedOf (stepEraseRecv f t s) t =
      (receivedOf s t).map (fun rl => aerase rl f) := by
  unfold receivedOf stepEraseRecv
  rw [getVoter_modify_self]
  cases getVoter s t <;> rfl

theorem delegationsOf_stepEraseRecv (f t : String) (s : DSState) (v : String) :
    delegationsOf (stepEraseRecv f t s) v = delegationsOf s v := by
  unfold delegationsOf stepEraseRecv
  apply getVoter_modify_proj
  intro w
  rfl

theorem availOf_stepEraseRecv (f t : String) (s : DSState) (v : String) :
    availOf (stepEraseRecv f t s) v = availOf s v := by
  unfold availOf stepEraseRecv
  apply getVoter_modify_proj
  intro w
  rfl

theorem availOf_stepCredit_ne (m : Int) (f : String) (s : DSState)
    (v : String) (hv : v ≠ f) :
    availOf (stepCredit m f s) v = availOf s v := by
  unfold availOf stepCredit
  rw [getVoter_modify_ne _ _ _ _ hv]

theorem availOf_stepCredit_self (m : Int) (f : String) (s : DSState) :
    availOf (stepCredit m f s) f = (availOf s f).map (· + m) := by
  unfold availOf stepCredit
  rw [getVoter_modify_self]
  cases getVoter s f <;> rfl

theorem delegationsOf_stepCredit (m : Int) (f : String) (s : DSState) (v : String) :
    delegationsOf (stepCredit m f s) v = delegationsOf s v := by
  unfold delegationsOf stepCredit
  apply getVoter_modify_proj
  intro w
  rfl

theorem receivedOf_stepCredit (m : Int) (f : String) (s : DSState) (v : String) :
    receivedOf (stepCredit m f s) v = receivedOf s v := by
  unfold receivedOf stepCredit
  apply getVoter_modify_proj
  intro w
  rfl

theorem nodupKeys_amodify {α : Type} (l : List (String × α)) (k : String)
    (g : α → α) (h : NodupKeys l) : NodupKeys (amodify l k g) := by
  unfold amodify
  cases alookup l k with
  | none => exact h
  | some v => exact nodupKeys_aset _ _ _ h

theorem step_WF (origin : String) (m : Int) (s : DSState)
    (e : String × String × Int) (hwf : WFState s) :
    WFState (applyCycleStep origin m s e) := by
  unfold applyCycleStep
  dsimp only
  have h1 : WFState (stepSubDeleg m e.1 e.2.1 s) := by
    unfold stepSubDeleg
    apply WF_modifyVoter
    · intro w hd hr
      exact ⟨nodupKeys_amodify _ _ _ hd, hr⟩
    · exact hwf
  have h2 : WFState (stepSubRecv m e.1 e.2.1 (stepSubDeleg m e.1 e.2.1 s)) := by
    unfold stepSubRecv
    apply WF_modifyVoter
    · intro w hd hr
      exact ⟨hd, nodupKeys_amodify _ _ _ hr⟩
    · exact h1
  have h3 : ∀ st : DSState, WFState st →
      WFState (if (edgePoints st e.1 e.2.1).any (· ≤ 0) then
        stepEraseRecv e.1 e.2.1 (stepEraseDeleg e.1 e.2.1 st) else st) := by
    intro st hst
    by_cases hc : (edgePoints st e.1 e.2.1).any (· ≤ 0)
    · rw [if_pos hc]
      have hd : WFState (stepEraseDeleg e.1 e.2.1 st) := by
        unfold stepEraseDeleg
        apply WF_modifyVoter
        · intro w hd hr
          exact ⟨nodupKeys_aerase _ _ hd, hr⟩
        · exact hst
      unfold stepEraseRecv
      apply WF_modifyVoter
      · intro w hd' hr
        exact ⟨hd', nodupKeys_aerase _ _ hr⟩
      · exact hd
    · rw [if_neg hc]
      exact hst
  have h4 : ∀ st : DSState, WFState st →
      WFState (if e.1 = origin then stepCredit m e.1 st else st) := by
    intro st hst
    by_cases ho : e.1 = origin
    · rw [if_pos ho]
      unfold stepCredit
      apply WF_modifyVoter
      · intro w hd hr
        exact ⟨hd, hr⟩
      · exact hst
    · rw [if_neg ho]
      exact hst
  exact h4 _ (h3 _ h2)

theorem step_delegationsOf_ne (origin : String) (m : Int) (s : DSState)
    (e : String × String × Int) (v : String) (hv : v ≠ e.1) :
    delegationsOf (applyCycleStep origin m s e) v = delegationsOf s v := by
  unfold applyCycleStep
  dsimp only
  have h2 : ∀ st : DSState,
      delegationsOf (if e.1 = origin then stepCredit m e.1 st else st) v =
        delegationsOf st v := by
    intro st
    by_cases ho : e.1 = origin
    · rw [if_pos ho, delegationsOf_stepCredit]
    · rw [if_neg ho]
  have h1 : ∀ st : DSState,
      delegationsOf (if (edgePoints st e.1 e.2.1).any (· ≤ 0) then
        stepEraseRecv e.1 e.2.1 (stepEraseDeleg e.1 e.2.1 st) else st) v =
        delegationsOf st v := by
    intro st
    by_cases hc : (edgePoints st e.1 e.2.1).any (· ≤ 0)
    · rw [if_pos hc, delegationsOf_stepEraseRecv,
        delegationsOf_stepEraseDeleg_ne _ _ _ _ hv]
    · rw [if_neg hc]
  rw [h2, h1, delegationsOf_stepSubRecv, delegationsOf_stepSubDeleg_ne _ _ _ _ _ hv]

theorem step_receivedOf_ne (origin : String) (m : Int) (s : DSState)
    (e : String × String × Int) (v : String) (hv : v ≠ e.2.1) :
    receivedOf (applyCycleStep origin m s e) v = receivedOf s v := by
  unfold applyCycleStep
  dsimp only
  have h2 : ∀ st : DSState,
      receivedOf (if e.1 = origin then stepCredit m e.1 st else st) v =
        receivedOf st v := by
    intro st
    by_cases ho : e.1 = origin
    · rw [if_pos ho, receivedOf_stepCredit]
    · rw [if_neg ho]
  have h1 : ∀ st : DSState,
      receivedOf (if (edgePoints st e.1 e.2.1).any (· ≤ 0) then
        stepEraseRecv e.1 e.2.1 (stepEraseDeleg e.1 e.2.1 st) else st) v =
        receivedOf st v := by
    intro st
    by_cases hc : (edgePoints st e.1 e.2.1).any (· ≤ 0)
    · rw [if_pos hc, receivedOf_stepEraseRecv_ne _ _ _ _ hv,
        receivedOf_stepEraseDeleg]
    · rw [if_neg hc]
  rw [h2, h1, receivedOf_stepSubRecv_ne _ _ _ _ _ hv, receivedOf_stepSubDeleg]

theorem step_availOf_ne (origin : String) (m : Int) (s : DSState)
    (e : String × String × Int) (v : String) (hv : v ≠ e.1) :
    availOf (applyCycleStep origin m s e) v = availOf s v := by
  unfold applyCycleStep
  dsimp only
  have h2 : ∀ st : DSState,
      availOf (if e.1 = origin then stepCredit m e.1 st else st) v =
        availOf st v := by
    intro st
    by_cases ho : e.1 = origin
    · rw [if_pos ho, availOf_stepCredit_ne _ _ _ _ hv]
    · rw [if_neg ho]
  have h1 : ∀ st : DSState,
      availOf (if (edgePoints st e.1 e.2.1).any (· ≤ 0) then
        stepEraseRecv e.1 e.2.1 (stepEraseDeleg e.1 e.2.1 st) else st) v =
        availOf st v := by
    intro st
    by_cases hc : (edgePoints st e.1 e.2.1).any (· ≤ 0)
    · rw [if_pos hc, availOf_stepEraseRecv, availOf_stepEraseDeleg]
    · rw [if_neg hc]
  rw [h2, h1, availOf_stepSubRecv, availOf_stepSubDeleg]

theorem step_availOf_self (origin : String) (m : Int) (s : DSState)
    (e : String × String × Int) :
    availOf (applyCycleStep origin m s e) e.1 =
      (if e.1 = origin then (availOf s e.1).map (· + m) else availOf s e.1) := by
  unfold applyCycleStep
  dsimp only
  have h1 : ∀ st : DSState,
      availOf (if (edgePoints st e.1 e.2.1).any (· ≤ 0) then
        stepEraseRecv e.1 e.2.1 (stepEraseDeleg e.1 e.2.1 st) else st) e.1 =
        availOf st e.1 := by
    intro st
    by_cases hc : (edgePoints st e.1 e.2.1).any (· ≤ 0)
    · rw [if_pos hc, availOf_stepEraseRecv, availOf_stepEraseDeleg]
    · rw [if_neg hc]
  by_cases ho : e.1 = origin
  · rw [if_pos ho, if_pos ho, availOf_stepCredit_self, h1,
      availOf_stepSubRecv, availOf_stepSubDeleg]
  · rw [if_neg ho, if_neg ho, h1, availOf_stepSubRecv, availOf_stepSubDeleg]

theorem step_getVoter_ne (origin : String) (m : Int) (s : DSState)
    (e : String × String × Int) (v : String) (hv1 : v ≠ e.1) (hv2 : v ≠ e.2.1) :
    getVoter (applyCycleStep origin m s e) v = getVoter s v := by
  unfold applyCycleStep
  dsimp only
  have h2 : ∀ st : DSState,
      getVoter (if e.1 = origin then stepCredit m e.1 st else st) v =
        getVoter st v := by
    intro st
    by_cases ho : e.1 = origin
    · rw [if_pos ho]
      exact getVoter_modify_ne _ _ _ _ hv1
    · rw [if_neg ho]
  have h1 : ∀ st : DSState,
      getVoter (if (edgePoints st e.1 e.2.1).any (· ≤ 0) then
        stepEraseRecv e.1 e.2.1 (stepEraseDeleg e.1 e.2.1 st) else st) v =
        getVoter st v := by
    intro st
    by_cases hc : (edgePoints st e.1 e.2.1).any (· ≤ 0)
    · rw [if_pos hc]
      unfold stepEraseRecv stepEraseDeleg
      rw [getVoter_modify_ne _ _ _ _ hv2, getVoter_modify_ne _ _ _ _ hv1]
    · rw [if_neg hc]
  rw [h2, h1]
  unfold stepSubRecv stepSubDeleg
  rw [getVoter_modify_ne _ _ _ _ hv2, getVoter_modify_ne _ _ _ _ hv1]

theorem edgePoints_some_elim (s : DSState) (f t : String) (w : Int)
    (h : edgePoints s f t = some w) :
    ∃ vf, getVoter s f = some vf ∧ ∃ i, alookup vf.delegations t = some i ∧
      i.points = w := by
  unfold edgePoints at h
  cases hf : getVoter s f with
  | none => rw [hf] at h; exact absurd h (by simp)
  | some vf =>
    rw [hf] at h
    simp only [Option.some_bind] at h
    cases hi : alookup vf.delegations t with
    | none => rw [hi] at h; exact absurd h (by simp)
    | some i =>
      rw [hi] at h
      simp only [Option.map_some', Option.some.injEq] at h
      exact ⟨vf, rfl, i, hi, h⟩

theorem recvPoints_some_elim (s : DSState) (t f : String) (w : Int)
    (h : recvPoints s t f = some w) :
    ∃ vt, getVoter s t = some vt ∧ ∃ j, alookup vt.received_points f = some j ∧
      j.points = w := by
  unfold recvPoints at h
  cases ht : getVoter s t with
  | none => rw [ht] at h; exact absurd h (by simp)
  | some vt =>
    rw [ht] at h
    simp only [Option.some_bind] at h
    cases hj : alookup vt.received_points f with
    | none => rw [hj] at h; exact absurd h (by simp)
    | some j =>
      rw [hj] at h
      simp only [Option.map_some', Option.some.injEq] at h
      exact ⟨vt, rfl, j, hj, h⟩

theorem step_effect (origin : String) (m : Int) (s : DSState)
    (e : String × String × Int) (hwf : WFState s)
    (hedge : edgePoints s e.1 e.2.1 = some e.2.2)
    (hrecv : recvPoints s e.2.1 e.1 = some e.2.2) :
    edgePoints (applyCycleStep origin m s e) e.1 e.2.1 =
      (if e.2.2 - m ≤ 0 then none else some (e.2.2 - m)) ∧
    recvPoints (applyCycleStep origin m s e) e.2.1 e.1 =
      (if e.2.2 - m ≤ 0 then none else some (e.2.2 - m)) := by
  obtain ⟨vf, hvf, i, hi, hip⟩ := edgePoints_some_elim s e.1 e.2.1 e.2.2 hedge
  obtain ⟨vt, hvt, j, hj, hjp⟩ := recvPoints_some_elim s e.2.1 e.1 e.2.2 hrecv
  have hvfnd := (hwf.2 _ (alookup_mem _ _ _ hvf)).1
  have hvtnd := (hwf.2 _ (alookup_mem _ _ _ hvt)).2
  -- after the two subtractions
  have hdl1 : delegationsOf (stepSubDeleg m e.1 e.2.1 s) e.1 =
      some (aset vf.delegations e.2.1 { i with points := i.points - m }) := by
    rw [delegationsOf_stepSubDeleg_self]
    unfold delegationsOf
    rw [hvf]
    simp only [Option.map_some', Option.some.injEq]
    unfold amodify
    rw [hi]
  have hdl2 : delegationsOf (stepSubRecv m e.1 e.2.1 (stepSubDeleg m e.1 e.2.1 s))
      e.1 = some (aset vf.delegations e.2.1 { i with points := i.points - m }) := by
    rw [delegationsOf_stepSubRecv]
    exact hdl1
  have hedge2 : edgePoints (stepSubRecv m e.1 e.2.1 (stepSubDeleg m e.1 e.2.1 s))
      e.1 e.2.1 = some (e.2.2 - m) := by
    rw [edgePoints_eq_proj, hdl2]
    simp only [Option.some_bind]
    rw [alookup_aset_self]
    simp only [Option.map_some', Option.some.injEq]
    rw [← hip]
  have hrl1 : receivedOf (stepSubDeleg m e.1 e.2.1 s) e.2.1 =
      some vt.received_points := by
    rw [receivedOf_stepSubDeleg]
    unfold receivedOf
    rw [hvt]
    rfl
  have hrl2 : receivedOf (stepSubRecv m e.1 e.2.1 (stepSubDeleg m e.1 e.2.1 s))
      e.2.1 = some (aset vt.received_points e.1 { j with points := j.points - m }) := by
    rw [receivedOf_stepSubRecv_self, hrl1]
    simp only [Option.map_some', Option.some.injEq]
    unfold amodify
    rw [hj]
  have hrecv2 : recvPoints (stepSubRecv m e.1 e.2.1 (stepSubDeleg m e.1 e.2.1 s))
      e.2.1 e.1 = some (e.2.2 - m) := by
    rw [recvPoints_eq_proj, hrl2]
    simp only [Option.some_bind]
    rw [alookup_aset_self]
    simp only [Option.map_some', Option.some.injEq]
    rw [← hjp]
  have hnd2 : NodupKeys (aset vf.delegations e.2.1 { i with points := i.points - m }) :=
    nodupKeys_aset _ _ _ hvfnd
  have hndr2 : NodupKeys (aset vt.received_points e.1 { j with points := j.points - m }) :=
    nodupKeys_aset _ _ _ hvtnd
  -- the erase-or-keep stage
  have hcredit_d : ∀ st : DSState,
      delegationsOf (if e.1 = origin then stepCredit m e.1 st else st) e.1 =
        delegationsOf st e.1 := by
    intro st
    by_cases ho : e.1 = origin
    · rw [if_pos ho, delegationsOf_stepCredit]
    · rw [if_neg ho]
  have hcredit_r : ∀ st : DSState,
      receivedOf (if e.1 = origin then stepCredit m e.1 st else st) e.2.1 =
        receivedOf st e.2.1 := by
    intro st
    by_cases ho : e.1 = origin
    · rw [if_pos ho, receivedOf_stepCredit]
    · rw [if_neg ho]
  unfold applyCycleStep
  dsimp only
  by_cases hle : e.2.2 - m ≤ 0
  · have hcond : (edgePoints (stepSubRecv m e.1 e.2.1 (stepSubDeleg m e.1 e.2.1 s))
        e.1 e.2.1).any (· ≤ 0) = true := by
      rw [hedge2]
      simpa using hle
    rw [hcond]
    simp only [if_true]
    constructor
    · rw [edgePoints_eq_proj, hcredit_d]
      rw [delegationsOf_stepEraseRecv, delegationsOf_stepEraseDeleg_self, hdl2]
      simp only [Option.map_some', Option.some_bind]
      rw [alookup_aerase_self _ _ hnd2]
      simp only [Option.map_none', if_pos hle]
    · rw [recvPoints_eq_proj, hcredit_r]
      rw [receivedOf_stepEraseRecv_self, receivedOf_stepEraseDeleg, hrl2]
      simp only [Option.map_some', Option.some_bind]
      rw [alookup_aerase_self _ _ hndr2]
      simp only [Option.map_none', if_pos hle]
  · have hcond : (edgePoints (stepSubRecv m e.1 e.2.1 (stepSubDeleg m e.1 e.2.1 s))
        e.1 e.2.1).any (· ≤ 0) = false := by
      rw [hedge2]
      simpa using hle
    rw [hcond]
    simp only [Bool.false_eq_true, if_false]
    constructor
    · rw [edgePoints_eq_proj, hcredit_d, ← edgePoints_eq_proj, hedge2, if_neg hle]
    · rw [recvPoints_eq_proj, hcredit_r, ← recvPoints_eq_proj, hrecv2, if_neg hle]

theorem fold_delegationsOf_frame (origin : String) (m : Int) :
    ∀ (l : List (String × String × Int)) (s : DSState) (v : String),
      v ∉ l.map (·.1) →
      delegationsOf (l.foldl (applyCycleStep origin m) s) v = delegationsOf s v := by
  intro l
  induction l with
  | nil => intro s v _; rfl
  | cons e rest ih =>
    intro s v hv
    simp only [List.map_cons, List.mem_cons, not_or] at hv
    rw [List.foldl_cons, ih _ _ hv.2, step_delegationsOf_ne _ _ _ _ _ hv.1]

theorem fold_receivedOf_frame (origin : String) (m : Int) :
    ∀ (l : List (String × String × Int)) (s : DSState) (v : String),
      v ∉ l.map (·.2.1) →
      receivedOf (l.foldl (applyCycleStep origin m) s) v = receivedOf s v := by
  intro l
  induction l with
  | nil => intro s v _; rfl
  | cons e rest ih =>
    intro s v hv
    simp only [List.map_cons, List.mem_cons, not_or] at hv
    rw [List.foldl_cons, ih _ _ hv.2, step_receivedOf_ne _ _ _ _ _ hv.1]

theorem fold_availOf_frame (origin : String) (m : Int) :
    ∀ (l : List (String × String × Int)) (s : DSState) (v : String),
      v ∉ l.map (·.1) →
      availOf (l.foldl (applyCycleStep origin m) s) v = availOf s v := by
  intro l
  induction l with
  | nil => intro s v _; rfl
  | cons e rest ih =>
    intro s v hv
    simp only [List.map_cons, List.mem_cons, not_or] at hv
    rw [List.foldl_cons, ih _ _ hv.2, step_availOf_ne _ _ _ _ _ hv.1]

theorem fold_getVoter_frame (origin : String) (m : Int) :
    ∀ (l : List (String × String × Int)) (s : DSState) (v : String),
      v ∉ l.map (·.1) → v ∉ l.map (·.2.1) →
      getVoter (l.foldl (applyCycleStep origin m) s) v = getVoter s v := by
  intro l
  induction l with
  | nil => intro s v _ _; rfl
  | cons e rest ih =>
    intro s v hv1 hv2
    simp only [List.map_cons, List.mem_cons, not_or] at hv1 hv2
    rw [List.foldl_cons, ih _ _ hv1.2 hv2.2,
      step_getVoter_ne _ _ _ _ _ hv1.1 hv2.1]

theorem fold_WF (origin : String) (m : Int) :
    ∀ (l : List (String × String × Int)) (s : DSState),
      WFState s → WFState (l.foldl (applyCycleStep origin m) s) := by
  intro l
  induction l with
  | nil => intro s h; exact h
  | cons e rest ih =>
    intro s h
    rw [List.foldl_cons]
    exact ih _ (step_WF origin m s e h)

theorem fold_cycle_spec (origin : String) (m : Int) :
    ∀ (l : List (String × String × Int)) (s : DSState),
      WFState s →
      (l.map (·.1)).Nodup → (l.map (·.2.1)).Nodup →
      (∀ e ∈ l, edgePoints s e.1 e.2.1 = some e.2.2 ∧
        recvPoints s e.2.1 e.1 = some e.2.2) →
      (∀ e ∈ l,
        edgePoints (l.foldl (applyCycleStep origin m) s) e.1 e.2.1 =
          (if e.2.2 - m ≤ 0 then none else some (e.2.2 - m)) ∧
        recvPoints (l.foldl (applyCycleStep origin m) s) e.2.1 e.1 =
          (if e.2.2 - m ≤ 0 then none else some (e.2.2 - m))) ∧
      (∀ v, v ≠ origin →
        availOf (l.foldl (applyCycleStep origin m) s) v = availOf s v) ∧
      (origin ∈ l.map (·.1) →
        availOf (l.foldl (applyCycleStep origin m) s) origin =
          (availOf s origin).map (· + m)) ∧
      (origin ∉ l.map (·.1) →
        availOf (l.foldl (applyCycleStep origin m) s) origin =
          availOf s origin) := by
  intro l
  induction l with
  | nil =>
    intro s hwf _ _ _
    exact ⟨fun e he => absurd he (List.not_mem_nil e),
      fun v _ => rfl, fun h => absurd h (List.not_mem_nil origin), fun _ => rfl⟩
  | cons e rest ih =>
    intro s hwf hnd1 hnd2 hpre
    simp only [List.map_cons, List.nodup_cons] at hnd1 hnd2
    have hs' := step_WF origin m s e hwf
    have hpre' : ∀ e' ∈ rest, edgePoints (applyCycleStep origin m s e) e'.1 e'.2.1 =
        some e'.2.2 ∧ recvPoints (applyCycleStep origin m s e) e'.2.1 e'.1 =
        some e'.2.2 := by
      intro e' he'
      have hne1 : e'.1 ≠ e.1 := by
        intro hcontra
        exact hnd1.1 (hcontra ▸ List.mem_map_of_mem (·.1) he')
      have hne2 : e'.2.1 ≠ e.2.1 := by
        intro hcontra
        exact hnd2.1 (hcontra ▸ List.mem_map_of_mem (·.2.1) he')
      have h := hpre e' (List.mem_cons_of_mem e he')
      constructor
      · rw [edgePoints_congr e'.1 e'.2.1
          (step_delegationsOf_ne origin m s e e'.1 hne1)]
        exact h.1
      · rw [recvPoints_congr e'.2.1 e'.1
          (step_receivedOf_ne origin m s e e'.2.1 hne2)]
        exact h.2
    have hIH := ih (applyCycleStep origin m s e) hs' hnd1.2 hnd2.2 hpre'
    have hestep := step_effect origin m s e hwf (hpre e (List.mem_cons_self e rest)).1
      (hpre e (List.mem_cons_self e rest)).2
    refine ⟨?_, ?_, ?_, ?_⟩
    · intro e' he'
      rcases List.mem_cons.1 he' with heq | hmem
      · subst heq
        rw [List.foldl_cons]
        constructor
        · rw [edgePoints_congr e'.1 e'.2.1
            (fold_delegationsOf_frame origin m rest _ e'.1 hnd1.1)]
          exact hestep.1
        · rw [recvPoints_congr e'.2.1 e'.1
            (fold_receivedOf_frame origin m rest _ e'.2.1 hnd2.1)]
          exact hestep.2
      · rw [List.foldl_cons]
        exact (hIH.1 e' hmem)
    · intro v hv
      rw [List.foldl_cons, hIH.2.1 v hv]
      by_cases hve : v = e.1
      · subst hve
        rw [step_availOf_self, if_neg (fun hc => hv hc)]
      · exact step_availOf_ne origin m s e v hve
    · intro hmem
      rw [List.foldl_cons]
      rcases List.mem_cons.1 hmem with heq | hmem'
      · have horig : e.1 = origin := heq.symm
        subst horig
        have hnotin : e.1 ∉ rest.map (·.1) := hnd1.1
        rw [hIH.2.2.2 hnotin, step_availOf_self, if_pos rfl]
      · have hne : e.1 ≠ origin := by
          intro hcontra
          exact hnd1.1 (hcontra ▸ hmem')
        rw [hIH.2.2.1 hmem']
        rw [step_availOf_ne origin m s e origin (fun hc => hne hc.symm)]
    · intro hnotin
      simp only [List.map_cons, List.mem_cons, not_or] at hnotin
      rw [List.foldl_cons, hIH.2.2.2 hnotin.2]
      exact step_availOf_ne origin m s e origin hnotin.1

/-- The consecutive (cyclically closed) edge pairs of a cycle list. -/
def cycleEdgePairs (cycle : List String) : List (String × String) :=
  (List.range cycle.length).map fun i =>
    (cycle.getD i "", cycle.getD ((i + 1) % cycle.length) "")

theorem cycleEdgeAt_some_elim (s : DSState) (c : List String) (i : Nat)
    (e : String × String × Int) (h : cycleEdgeAt s c i = some e) :
    e.1 = c.getD i "" ∧ e.2.1 = c.getD ((i + 1) % c.length) "" ∧
      edgePoints s e.1 e.2.1 = some e.2.2 := by
  unfold cycleEdgeAt at h
  dsimp only at h
  cases hf : alookup s.voters (c.getD i "") with
  | none => rw [hf] at h; exact absurd h (by simp)
  | some delegator =>
    rw [hf] at h
    dsimp only at h
    cases ht : alookup s.voters (c.getD ((i + 1) % c.length) "") with
    | none => rw [ht] at h; exact absurd h (by simp)
    | some w =>
      rw [ht] at h
      dsimp only at h
      cases hi : alookup delegator.delegations (c.getD ((i + 1) % c.length) "") with
      | none => rw [hi] at h; exact absurd h (by simp)
      | some info =>
        rw [hi] at h
        simp only [Option.map_some', Option.some.injEq] at h
        subst h
        refine ⟨rfl, rfl, ?_⟩
        unfold edgePoints getVoter
        rw [hf]
        simp only [Option.some_bind]
        rw [hi]
        rfl

theorem cycleEdgeAt_isSome (s : DSState) (c : List String) (i : Nat)
    (_hi : i < c.length) (w : Int)
    (hedge : edgePoints s (c.getD i "") (c.getD ((i + 1) % c.length) "") = some w)
    (ht : (getVoter s (c.getD ((i + 1) % c.length) "")).isSome) :
    cycleEdgeAt s c i =
      some (c.getD i "", c.getD ((i + 1) % c.length) "", w) := by
  obtain ⟨vf, hvf, info, hinfo, hip⟩ := edgePoints_some_elim _ _ _ _ hedge
  unfold cycleEdgeAt
  dsimp only
  unfold getVoter at hvf ht
  rw [hvf]
  dsimp only
  cases hvt : alookup s.voters (c.getD ((i + 1) % c.length) "") with
  | none => rw [hvt] at ht; exact absurd ht (by simp)
  | some vt =>
    dsimp only
    rw [hinfo]
    simp only [Option.map_some', Option.some.injEq]
    rw [hip]

theorem succ_mod_inj (n i j : Nat) (hi : i < n) (hj : j < n)
    (h : (i + 1) % n = (j + 1) % n) : i = j := by
  by_cases hi1 : i + 1 = n
  · by_cases hj1 : j + 1 = n
    · omega
    · rw [hi1, Nat.mod_self, Nat.mod_eq_of_lt (by omega)] at h
      omega
  · by_cases hj1 : j + 1 = n
    · rw [hj1, Nat.mod_self, Nat.mod_eq_of_lt (by omega)] at h
      omega
    · rw [Nat.mod_eq_of_lt (by omega), Nat.mod_eq_of_lt (by omega)] at h
      omega

theorem getD_inj_of_nodup (c : List String) (hc : c.Nodup) (i j : Nat)
    (hi : i < c.length) (hj : j < c.length)
    (h : c.getD i "" = c.getD j "") : i = j := by
  rw [List.getD_eq_getElem c "" hi, List.getD_eq_getElem c "" hj] at h
  exact (List.Nodup.getElem_inj_iff hc).1 h

theorem collect_firsts_nodup (s : DSState) (c : List String) (hc : c.Nodup) :
    ((collectCycleEdges s c).map (·.1)).Nodup := by
  unfold collectCycleEdges
  have key : ∀ idxs : List Nat, (∀ i ∈ idxs, i < c.length) → idxs.Nodup →
      ((idxs.filterMap (cycleEdgeAt s c)).map (·.1)).Nodup := by
    intro idxs
    induction idxs with
    | nil => intro _ _; simp
    | cons i rest ih =>
      intro hbound hnd
      simp only [List.nodup_cons] at hnd
      rw [List.filterMap_cons]
      cases he : cycleEdgeAt s c i with
      | none => exact ih (fun j hj => hbound j (List.mem_cons_of_mem i hj)) hnd.2
      | some e =>
        simp only [List.map_cons, List.nodup_cons]
        constructor
        · intro hmem
          rcases List.mem_map.1 hmem with ⟨e', he'm, he'eq⟩
          rcases List.mem_filterMap.1 he'm with ⟨j, hjm, hje⟩
          have h1 := (cycleEdgeAt_some_elim s c i e he).1
          have h2 := (cycleEdgeAt_some_elim s c j e' hje).1
          have : i = j := by
            apply getD_inj_of_nodup c hc i j
              (hbound i (List.mem_cons_self i rest))
              (hbound j (List.mem_cons_of_mem i hjm))
            rw [← h1, ← h2, he'eq]
          exact hnd.1 (this ▸ hjm)
        · exact ih (fun j hj => hbound j (List.mem_cons_of_mem i hj)) hnd.2
  exact key (List.range c.length) (fun i hi => List.mem_range.1 hi)
    (List.nodup_range c.length)

theorem collect_seconds_nodup (s : DSState) (c : List String) (hc : c.Nodup) :
    ((collectCycleEdges s c).map (·.2.1)).Nodup := by
  unfold collectCycleEdges
  have key : ∀ idxs : List Nat, (∀ i ∈ idxs, i < c.length) → idxs.Nodup →
      ((idxs.filterMap (cycleEdgeAt s c)).map (·.2.1)).Nodup := by
    intro idxs
    induction idxs with
    | nil => intro _ _; simp
    | cons i rest ih =>
      intro hbound hnd
      simp only [List.nodup_cons] at hnd
      rw [List.filterMap_cons]
      cases he : cycleEdgeAt s c i with
      | none => exact ih (fun j hj => hbound j (List.mem_cons_of_mem i hj)) hnd.2
      | some e =>
        simp only [List.map_cons, List.nodup_cons]
        constructor
        · intro hmem
          rcases List.mem_map.1 hmem with ⟨e', he'm, he'eq⟩
          rcases List.mem_filterMap.1 he'm with ⟨j, hjm, hje⟩
          have h1 := (cycleEdgeAt_some_elim s c i e he).2.1
          have h2 := (cycleEdgeAt_some_elim s c j e' hje).2.1
          have hlen : 0 < c.length := by
            have := hbound i (List.mem_cons_self i rest)
            omega
          have hmod : (i + 1) % c.length = (j + 1) % c.length := by
            apply getD_inj_of_nodup c hc _ _
              (Nat.mod_lt _ hlen) (Nat.mod_lt _ hlen)
            rw [← h1, ← h2, he'eq]
          have : i = j := succ_mod_inj c.length i j
            (hbound i (List.mem_cons_self i rest))
            (hbound j (List.mem_cons_of_mem i hjm)) hmod
          exact hnd.1 (this ▸ hjm)
        · exact ih (fun j hj => hbound j (List.mem_cons_of_mem i hj)) hnd.2
  exact key (List.range c.length) (fun i hi => List.mem_range.1 hi)
    (List.nodup_range c.length)

theorem minCyclePoints_le (l : List (String × String × Int)) (m : Int)
    (h : minCyclePoints l = some m) : ∀ e ∈ l, m ≤ e.2.2 := by
  induction l generalizing m with
  | nil => intro e he; exact absurd he (List.not_mem_nil e)
  | cons e0 rest ih =>
    intro e he
    unfold minCyclePoints at h
    cases hr : minCyclePoints rest with
    | none =>
      rw [hr] at h
      injection h with h
      rcases List.mem_cons.1 he with heq | hmem
      · subst heq
        omega
      · cases rest with
        | nil => exact absurd hmem (List.not_mem_nil e)
        | cons x xs =>
          exfalso
          unfold minCyclePoints at hr
          cases hmx : minCyclePoints xs with
          | none =>
            rw [hmx] at hr
            exact absurd hr (by simp)
          | some q =>
            rw [hmx] at hr
            exact absurd hr (by simp)
    | some mr =>
      rw [hr] at h
      injection h with h
      rcases List.mem_cons.1 he with heq | hmem
      · subst heq
        rw [← h]
        exact min_le_left _ _
      · have := ih mr hr e hmem
        rw [← h]
        omega

theorem collect_mem_cycle (s : DSState) (c : List String)
    (e : String × String × Int) (he : e ∈ collectCycleEdges s c) :
    e.1 ∈ c ∧ e.2.1 ∈ c := by
  rcases List.mem_filterMap.1 he with ⟨i, hir, hie⟩
  have hi := List.mem_range.1 hir
  obtain ⟨h1, h2, _⟩ := cycleEdgeAt_some_elim s c i e hie
  have hlen : 0 < c.length := by omega
  constructor
  · rw [h1, List.getD_eq_getElem c "" hi]
    exact List.getElem_mem hi
  · rw [h2, List.getD_eq_getElem c "" (Nat.mod_lt _ hlen)]
    exact List.getElem_mem (Nat.mod_lt _ hlen)

theorem collect_complete (s : DSState) (c : List String)
    (hvalid : ∀ pr ∈ cycleEdgePairs c, ∃ w : Int,
      edgePoints s pr.1 pr.2 = some w ∧ recvPoints s pr.2 pr.1 = some w) :
    ∀ pr ∈ cycleEdgePairs c, ∃ e ∈ collectCycleEdges s c,
      e.1 = pr.1 ∧ e.2.1 = pr.2 ∧ edgePoints s pr.1 pr.2 = some e.2.2 := by
  intro pr hpr
  rcases List.mem_map.1 hpr with ⟨i, hir, hieq⟩
  obtain ⟨w, hedge, hrecv⟩ := hvalid pr hpr
  obtain ⟨vt, hvt, -⟩ := recvPoints_some_elim s pr.2 pr.1 w hrecv
  have hie : cycleEdgeAt s c i = some (c.getD i "", c.getD ((i + 1) % c.length) "", w) := by
    apply cycleEdgeAt_isSome s c i (List.mem_range.1 hir) w
    · rw [show c.getD i "" = pr.1 from congrArg Prod.fst hieq,
        show c.getD ((i + 1) % c.length) "" = pr.2 from congrArg Prod.snd hieq]
      exact hedge
    · rw [show c.getD ((i + 1) % c.length) "" = pr.2 from congrArg Prod.snd hieq,
        hvt]
      rfl
  refine ⟨(c.getD i "", c.getD ((i + 1) % c.length) "", w),
    List.mem_filterMap.2 ⟨i, hir, hie⟩, ?_, ?_, ?_⟩
  · exact congrArg Prod.fst hieq
  · exact congrArg Prod.snd hieq
  · exact hedge

theorem collect_precond (s : DSState) (c : List String)
    (hvalid : ∀ pr ∈ cycleEdgePairs c, ∃ w : Int,
      edgePoints s pr.1 pr.2 = some w ∧ recvPoints s pr.2 pr.1 = some w) :
    ∀ e ∈ collectCycleEdges s c,
      edgePoints s e.1 e.2.1 = some e.2.2 ∧ recvPoints s e.2.1 e.1 = some e.2.2 := by
  intro e he
  rcases List.mem_filterMap.1 he with ⟨i, hir, hie⟩
  obtain ⟨h1, h2, hedge⟩ := cycleEdgeAt_some_elim s c i e hie
  have hpr : (e.1, e.2.1) ∈ cycleEdgePairs c := by
    unfold cycleEdgePairs
    apply List.mem_map.2
    exact ⟨i, hir, by rw [← h1, ← h2]⟩
  obtain ⟨w, hew, hrw⟩ := hvalid _ hpr
  have hweq : w = e.2.2 := by
    rw [hedge] at hew
    injection hew with hval
    exact hval.symm
  exact ⟨hedge, hweq ▸ hrw⟩

/-- C3 (amended): for a detected cycle all of whose consecutive edges are
still present — symmetric in `delegations`/`received_points` — when its
cleanup runs (always the case for the first cycle cleaned after a
delegation, and for all of them when the detected cycles share no edge),
`clean_delegation_cycle` realises exactly the claimed transform: with `m`
the minimum weight over the cycle's edges, every cycle edge loses `m` on
both its `delegations` and `received_points` entries, edges whose points
reach 0 are deleted on both sides, `m` is credited to the detected
cycle's first node, no other voter's available points change, and voters
outside the cycle are untouched.  (When a previous cleanup has already
removed one of the cycle's edges, the source instead works on the
still-present edges only and may credit nothing — see the
counterexample.) -/
theorem C3_cycle_resolution :
    ∀ (s : DSState) (cycle : List String) (m : Int),
      WFState s → cycle ≠ [] → cycle.Nodup →
      (∀ pr ∈ cycleEdgePairs cycle, ∃ w : Int,
        edgePoints s pr.1 pr.2 = some w ∧ recvPoints s pr.2 pr.1 = some w) →
      minCyclePoints (collectCycleEdges s cycle) = some m →
      (∀ pr ∈ cycleEdgePairs cycle, ∃ e ∈ collectCycleEdges s cycle,
        e.1 = pr.1 ∧ e.2.1 = pr.2 ∧ edgePoints s pr.1 pr.2 = some e.2.2) ∧
      (∀ e ∈ collectCycleEdges s cycle,
        m ≤ e.2.2 ∧
        edgePoints (cleanDelegationCycle s cycle) e.1 e.2.1 =
          (if e.2.2 - m ≤ 0 then none else some (e.2.2 - m)) ∧
        recvPoints (cleanDelegationCycle s cycle) e.2.1 e.1 =
          (if e.2.2 - m ≤ 0 then none else some (e.2.2 - m))) ∧
      availOf (cleanDelegationCycle s cycle) (cycle.headD "") =
        (availOf s (cycle.headD "")).map (· + m) ∧
      (∀ v, v ≠ cycle.headD "" →
        availOf (cleanDelegationCycle s cycle) v = availOf s v) ∧
      (∀ v, v ∉ cycle → getVoter (cleanDelegationCycle s cycle) v = getVoter s v) := by
  intro s cycle m hwf hne hnd hvalid hmin
  cases cycle with
  | nil => exact absurd rfl hne
  | cons origin rest =>
    have hhead : (origin :: rest).headD "" = origin := rfl
    have horig_pair : ((origin :: rest).getD 0 "",
        (origin :: rest).getD ((0 + 1) % (origin :: rest).length) "") ∈
        cycleEdgePairs (origin :: rest) := by
      unfold cycleEdgePairs
      apply List.mem_map.2
      refine ⟨0, List.mem_range.2 (by simp), rfl⟩
    obtain ⟨w0, hedge0, hrecv0⟩ := hvalid _ horig_pair
    obtain ⟨vf0, hvf0, -⟩ := edgePoints_some_elim _ _ _ _ hedge0
    have horig_some : (alookup s.voters origin).isNone = false := by
      have h0 : getVoter s origin = some vf0 := hvf0
      unfold getVoter at h0
      rw [h0]
      rfl
    have hclean : cleanDelegationCycle s (origin :: rest) =
        (collectCycleEdges s (origin :: rest)).foldl
          (applyCycleStep origin m) s := by
      unfold cleanDelegationCycle
      dsimp only
      rw [horig_some]
      simp only [Bool.false_eq_true, if_false]
      rw [hmin]
    have hpre := collect_precond s (origin :: rest) hvalid
    have hspec := fold_cycle_spec origin m (collectCycleEdges s (origin :: rest))
      s hwf (collect_firsts_nodup s _ hnd) (collect_seconds_nodup s _ hnd) hpre
    have hcomp := collect_complete s (origin :: rest) hvalid
    have horig_mem : origin ∈ (collectCycleEdges s (origin :: rest)).map (·.1) := by
      obtain ⟨e, hem, he1, -, -⟩ := hcomp _ horig_pair
      exact List.mem_map.2 ⟨e, hem, he1⟩
    refine ⟨hcomp, ?_, ?_, ?_, ?_⟩
    · intro e he
      refine ⟨minCyclePoints_le _ m hmin e he, ?_, ?_⟩
      · rw [hclean]
        exact (hspec.1 e he).1
      · rw [hclean]
        exact (hspec.1 e he).2
    · rw [hhead, hclean]
      exact hspec.2.2.1 horig_mem
    · intro v hv
      rw [hhead] at hv
      rw [hclean]
      exact hspec.2.1 v hv
    · intro v hv
      rw [hclean]
      apply fold_getVoter_frame
      · intro hmem
        rcases List.mem_map.1 hmem with ⟨e, hem, heq⟩
        exact hv (heq ▸ (collect_mem_cycle s _ e hem).1)
      · intro hmem
        rcases List.mem_map.1 hmem with ⟨e, hem, heq⟩
        exact hv (heq ▸ (collect_mem_cycle s _ e hem).2)

/-- C3 witness: in the §8 scenario the cycle detected after the third
delegation, `[C, A, B]`, resolves exactly as described — C (its first
node) is credited the cycle minimum 200. -/
theorem C3_cycle_resolution_witness :
    availOf (cleanDelegationCycle c4mid ["C", "A", "B"]) "C" =
      (availOf c4mid "C").map (· + 200) ∧
    edgePoints (cleanDelegationCycle c4mid ["C", "A", "B"]) "A" "B" =
      some 300 := by
  have hval : ∀ pr ∈ cycleEdgePairs ["C", "A", "B"], ∃ w : Int,
      edgePoints c4mid pr.1 pr.2 = some w ∧ recvPoints c4mid pr.2 pr.1 = some w := by
    intro pr hpr
    have hpairs : cycleEdgePairs ["C", "A", "B"] =
        [("C", "A"), ("A", "B"), ("B", "C")] := by decide
    rw [hpairs] at hpr
    rcases List.mem_cons.1 hpr with h | hpr
    · exact ⟨200, by rw [h]; decide, by rw [h]; decide⟩
    rcases List.mem_cons.1 hpr with h | hpr
    · exact ⟨500, by rw [h]; decide, by rw [h]; decide⟩
    rcases List.mem_cons.1 hpr with h | hpr
    · exact ⟨300, by rw [h]; decide, by rw [h]; decide⟩
    · exact absurd hpr (List.not_mem_nil pr)
  have h := C3_cycle_resolution c4mid ["C", "A", "B"] 200 (by decide)
    (by decide) (by decide) hval (by decide)
  constructor
  · exact h.2.2.1
  · have hmem : (("A", "B", (500 : Int)) :
        String × String × Int) ∈ collectCycleEdges c4mid ["C", "A", "B"] := by
      decide
    have he := (h.2.1 _ hmem).2.1
    simpa using he

/-- The claim's per-cycle resolution transform, stated from the claim's
words: it presupposes that every consecutive edge of the cycle is present
(`none` otherwise), takes `m` as the minimum edge weight over the cycle's
edges, subtracts `m` from every edge on both the delegator's and the
receiver's entries, drops edges reaching 0, and credits `m` to `v0`. -/
def specSubtractEdge (m : Int) (f t : String) (st : DSState) : DSState :=
  let st := stepSubDeleg m f t st
  let st := stepSubRecv m f t st
  if (edgePoints st f t).any (· ≤ 0) then
    stepEraseRecv f t (stepEraseDeleg f t st)
  else st

/-- See `specSubtractEdge`; `none` when a cycle edge is missing, because
the claim's description does not then apply. -/
def specCycleResolution (s : DSState) (cycle : List String) : Option DSState :=
  let pairs := cycleEdgePairs cycle
  if pairs.all (fun pr => (edgePoints s pr.1 pr.2).isSome) then
    match (pairs.filterMap (fun pr => edgePoints s pr.1 pr.2)).min? with
    | none => none
    | some m =>
      let s' := pairs.foldl (fun st pr => specSubtractEdge m pr.1 pr.2 st) s
      some (modifyVoter s' (cycle.headD "")
        fun v => { v with available_points := v.available_points + m })
  else none

/-- Ledger with edges B→A 10, B→C 10, C→A 10 built by delegations. -/
def c3pre : DSState :=
  (delegatePoints (delegatePoints (delegatePoints sysABC "B" "A" 10
    false).2 "B" "C" 10 false).2 "C" "A" 10 false).2

/-- The state right after `delegate(A, B, 5)` records the edge, before
cycle resolution. -/
def c3mid : DSState := applyDelegation c3pre "A" "B" 5 false

/-- The full `delegate(A, B, 5)` call. -/
def c3run : Bool × DSState := delegatePoints c3pre "A" "B" 5 false

/-- C3 counterexample: `delegate(A, B, 5)` on the ledger B→A 10, B→C 10,
C→A 10 detects the two overlapping cycles `[A, B]` and `[A, B, C]`.  The
claim says each detected cycle is resolved by subtracting its edge-weight
minimum from every one of its edges and crediting that minimum to its
first node; but after the first cycle's resolution deletes edge A→B, the
claimed transform no longer applies to the second detected cycle (its
composition is `none`), while the code still mutated the state: it erased
edge B→C entirely (subtracting 10, not the cycle minimum) and credited A
nothing for the second cycle (A's available points rose only by the first
cycle's 5). -/
theorem C3_counterexample :
    c3run.1 = true ∧
    detectCycles c3mid "A" = [["A", "B"], ["A", "B", "C"]] ∧
    c3run.2 = (detectCycles c3mid "A").foldl cleanDelegationCycle c3mid ∧
    (specCycleResolution c3mid ["A", "B"]).isSome = true ∧
    ((specCycleResolution c3mid ["A", "B"]).bind
      (fun s2 => specCycleResolution s2 ["A", "B", "C"])) = none ∧
    availOf c3run.2 "A" = (availOf c3mid "A").map (· + 5) ∧
    edgePoints c3run.2 "B" "C" = none := by
  decide

/-! ## Claim C2 — the revoke_delegation in effect -/

theorem aerase_of_alookup_none {α : Type} (l : List (String × α)) (k : String)
    (h : alookup l k = none) : aerase l k = l := by
  induction l with
  | nil => rfl
  | cons hd tl ih =>
    unfold alookup at h
    by_cases hk : hd.1 = k
    · rw [if_pos hk] at h; exact absurd h (by simp)
    · rw [if_neg hk] at h
      unfold aerase
      rw [if_neg hk, ih h]

theorem alookup_aerase_none {α : Type} (l : List (String × α)) (k k' : String)
    (h : alookup l k' = none) : alookup (aerase l k) k' = none := by
  induction l with
  | nil => rfl
  | cons hd tl ih =>
    unfold alookup at h
    by_cases hk' : hd.1 = k'
    · rw [if_pos hk'] at h; exact absurd h (by simp)
    · rw [if_neg hk'] at h
      unfold aerase
      by_cases hk : hd.1 = k
      · rw [if_pos hk]; exact h
      · rw [if_neg hk]
        unfold alookup
        rw [if_neg hk']
        exact ih h

theorem foldl_aerase_keys {α : Type} :
    ∀ (ks : List String) (l : List (String × α)), akeys l = ks →
      ks.foldl (fun acc k => aerase acc k) l = [] := by
  intro ks
  induction ks with
  | nil =>
    intro l h
    rcases List.map_eq_nil_iff.1 h with rfl
    rfl
  | cons k ks ih =>
    intro l h
    cases l with
    | nil => exact absurd h (by simp [akeys])
    | cons hd tl =>
      rw [akeys_cons] at h
      have h1 : hd.1 = k := (List.cons.injEq _ _ _ _ ▸ h).1
      have h2 : akeys tl = ks := (List.cons.injEq _ _ _ _ ▸ h).2
      rw [List.foldl_cons]
      have he : aerase (hd :: tl) k = tl := by
        unfold aerase; rw [if_pos h1]
      rw [he]
      exact ih tl h2

theorem rd_delegationsOf_from (st : DSState) (u k : String) :
    delegationsOf (removeDelegation st u k).2 u =
      (delegationsOf st u).map (fun dl => aerase dl k) := by
  unfold removeDelegation
  cases hv : alookup st.voters u with
  | none =>
    dsimp only
    unfold delegationsOf getVoter
    rw [hv]
    rfl
  | some v =>
    dsimp only
    cases hd : alookup v.delegations k with
    | none =>
      dsimp only
      unfold delegationsOf getVoter
      rw [hv]
      simp only [Option.map_some']
      rw [aerase_of_alookup_none v.delegations k hd]
    | some i =>
      dsimp only
      have hproj : delegationsOf (modifyVoter
          (modifyVoter st u fun v => { v with delegations := aerase v.delegations k })
          k fun v => { v with received_points := aerase v.received_points u }) u =
          delegationsOf (modifyVoter st u
            fun v => { v with delegations := aerase v.delegations k }) u := by
        unfold delegationsOf
        apply getVoter_modify_proj
        intro w
        rfl
      rw [hproj]
      unfold delegationsOf
      rw [getVoter_modify_self]
      unfold getVoter
      rw [hv]
      rfl

theorem rd_delegationsOf_ne (st : DSState) (u k w : String) (hw : w ≠ u) :
    delegationsOf (removeDelegation st u k).2 w = delegationsOf st w := by
  unfold removeDelegation
  cases hv : alookup st.voters u with
  | none => rfl
  | some v =>
    dsimp only
    cases hd : alookup v.delegations k with
    | none => rfl
    | some i =>
      dsimp only
      have hproj : delegationsOf (modifyVoter
          (modifyVoter st u fun v => { v with delegations := aerase v.delegations k })
          k fun v => { v with received_points := aerase v.received_points u }) w =
          delegationsOf (modifyVoter st u
            fun v => { v with delegations := aerase v.delegations k }) w := by
        unfold delegationsOf
        apply getVoter_modify_proj
        intro w
        rfl
      rw [hproj]
      unfold delegationsOf
      rw [getVoter_modify_ne _ _ _ _ hw]

theorem rd_availOf (st : DSState) (u k w : String) :
    availOf (removeDelegation st u k).2 w = availOf st w := by
  unfold removeDelegation
  cases hv : alookup st.voters u with
  | none => rfl
  | some v =>
    dsimp only
    cases hd : alookup v.delegations k with
    | none => rfl
    | some i =>
      dsimp only
      unfold availOf
      rw [show ∀ (s2 : DSState), (getVoter (modifyVoter s2
          k fun v => { v with received_points := aerase v.received_points u }) w).map
          (·.available_points) = (getVoter s2 w).map (·.available_points) from
        fun s2 => by apply getVoter_modify_proj; intro w; rfl]
      apply getVoter_modify_proj
      intro w
      rfl

theorem rd_edge_none (st : DSState) (u k f t : String)
    (h : edgePoints st f t = none) : edgePoints (removeDelegation st u k).2 f t = none := by
  by_cases hf : f = u
  · subst hf
    rw [edgePoints_eq_proj, rd_delegationsOf_from]
    rw [edgePoints_eq_proj] at h
    cases hdl : delegationsOf st f with
    | none => rfl
    | some dl =>
      simp only [Option.map_some', Option.some_bind]
      cases hlk : alookup dl t with
      | none => rw [alookup_aerase_none dl k t hlk]; rfl
      | some i =>
        rw [hdl] at h
        simp only [Option.some_bind, hlk, Option.map_some'] at h
        exact absurd h (by simp)
  · rw [edgePoints_eq_proj, rd_delegationsOf_ne st u k f hf, ← edgePoints_eq_proj]
    exact h

theorem reset_succ (fuel : Nat) (st : DSState) (u : String) (vis : List String) :
    resetSubdelegationsAux (fuel + 1) st u vis =
      if u ∈ vis then (st, vis)
      else
        (getDelegationsFrom st u).foldl
          (fun acc d =>
            ((removeDelegation (resetSubdelegationsAux fuel acc.1 d.1 acc.2).1 u d.1).2,
             (resetSubdelegationsAux fuel acc.1 d.1 acc.2).2))
          (st, u :: vis) := rfl

theorem reset_vis_mono :
    ∀ (fuel : Nat) (st : DSState) (u : String) (vis : List String) (w : String),
      w ∈ vis → w ∈ (resetSubdelegationsAux fuel st u vis).2 := by
  intro fuel
  induction fuel with
  | zero => intro st u vis w hw; exact hw
  | succ fuel ih =>
    intro st u vis w hw
    rw [reset_succ]
    by_cases hu : u ∈ vis
    · rw [if_pos hu]; exact hw
    · rw [if_neg hu]
      have hw' : w ∈ u :: vis := List.mem_cons_of_mem u hw
      suffices haux : ∀ (ds : List (String × Int)) (p : DSState × List String),
          w ∈ p.2 →
          w ∈ (ds.foldl
            (fun acc d =>
              ((removeDelegation (resetSubdelegationsAux fuel acc.1 d.1 acc.2).1 u d.1).2,
               (resetSubdelegationsAux fuel acc.1 d.1 acc.2).2)) p).2 by
        exact haux _ (st, u :: vis) hw'
      intro ds
      induction ds with
      | nil => intro p hp; exact hp
      | cons d rest ihd =>
        intro p hp
        rw [List.foldl_cons]
        exact ihd _ (ih p.1 d.1 p.2 w hp)

theorem reset_pres (P : DSState → Prop)
    (hrem : ∀ (st : DSState) (u' k : String), P st → P (removeDelegation st u' k).2) :
    ∀ (fuel : Nat) (st : DSState) (u : String) (vis : List String),
      P st → P (resetSubdelegationsAux fuel st u vis).1 := by
  intro fuel
  induction fuel with
  | zero => intro st u vis h; exact h
  | succ fuel ih =>
    intro st u vis h
    rw [reset_succ]
    by_cases hu : u ∈ vis
    · rw [if_pos hu]; exact h
    · rw [if_neg hu]
      suffices haux : ∀ (ds : List (String × Int)) (p : DSState × List String),
          P p.1 →
          P ((ds.foldl
            (fun acc d =>
              ((removeDelegation (resetSubdelegationsAux fuel acc.1 d.1 acc.2).1 u d.1).2,
               (resetSubdelegationsAux fuel acc.1 d.1 acc.2).2)) p).1) by
        exact haux _ (st, u :: vis) h
      intro ds
      induction ds with
      | nil => intro p hp; exact hp
      | cons d rest ihd =>
        intro p hp
        rw [List.foldl_cons]
        exact ihd _ (hrem _ _ _ (ih p.1 d.1 p.2 hp))

theorem reset_deleg_vis :
    ∀ (fuel : Nat) (st : DSState) (u : String) (vis : List String) (w : String),
      w ∈ vis →
      delegationsOf (resetSubdelegationsAux fuel st u vis).1 w = delegationsOf st w := by
  intro fuel
  induction fuel with
  | zero => intro st u vis w hw; rfl
  | succ fuel ih =>
    intro st u vis w hw
    rw [reset_succ]
    by_cases hu : u ∈ vis
    · rw [if_pos hu]
    · rw [if_neg hu]
      have hne : w ≠ u := fun he => hu (he ▸ hw)
      have hw' : w ∈ u :: vis := List.mem_cons_of_mem u hw
      suffices haux : ∀ (ds : List (String × Int)) (p : DSState × List String),
          w ∈ p.2 →
          delegationsOf ((ds.foldl
            (fun acc d =>
              ((removeDelegation (resetSubdelegationsAux fuel acc.1 d.1 acc.2).1 u d.1).2,
               (resetSubdelegationsAux fuel acc.1 d.1 acc.2).2)) p).1) w =
            delegationsOf p.1 w by
        exact haux _ (st, u :: vis) hw'
      intro ds
      induction ds with
      | nil => intro p hp; rfl
      | cons d rest ihd =>
        intro p hp
        rw [List.foldl_cons]
        have hp2 : w ∈ (((removeDelegation
            (resetSubdelegationsAux fuel p.1 d.1 p.2).1 u d.1).2,
            (resetSubdelegationsAux fuel p.1 d.1 p.2).2) : DSState × List String).2 :=
          reset_vis_mono fuel p.1 d.1 p.2 w hp
        rw [ihd _ hp2]
        dsimp only
        rw [rd_delegationsOf_ne _ _ _ _ hne]
        exact ih p.1 d.1 p.2 w hp

theorem reset_fold_deleg_self (fuel : Nat) (u : String) :
    ∀ (ds : List (String × Int)) (p : DSState × List String), u ∈ p.2 →
      delegationsOf ((ds.foldl
        (fun acc d =>
          ((removeDelegation (resetSubdelegationsAux fuel acc.1 d.1 acc.2).1 u d.1).2,
           (resetSubdelegationsAux fuel acc.1 d.1 acc.2).2)) p).1) u =
        (delegationsOf p.1 u).map
          (fun dl => ds.foldl (fun acc d => aerase acc d.1) dl) := by
  intro ds
  induction ds with
  | nil =>
    intro p hp
    rw [List.foldl_nil]
    cases delegationsOf p.1 u <;> rfl
  | cons d rest ihd =>
    intro p hp
    have hp' : u ∈ (((removeDelegation
        (resetSubdelegationsAux fuel p.1 d.1 p.2).1 u d.1).2,
        (resetSubdelegationsAux fuel p.1 d.1 p.2).2) : DSState × List String).2 :=
      reset_vis_mono fuel p.1 d.1 p.2 u hp
    rw [List.foldl_cons]
    rw [ihd _ hp']
    dsimp only
    rw [rd_delegationsOf_from, reset_deleg_vis fuel p.1 d.1 p.2 u hp]
    cases delegationsOf p.1 u with
    | none => rfl
    | some dl => simp [List.foldl_cons]

/-- C2 (amended): for two known voters joined by a direct delegation edge
`f → t`, the `revoke_delegation` in effect succeeds and recovers
`get_total_delegated_points(t)` — the sum of all of `t`'s incoming
delegations plus, transitively, every upstream voter's incoming
delegations, whether or not they were funded by `f`'s delegation — then
removes the direct edge, empties `t`'s outgoing `delegations` mapping
(the recursive subtree teardown), and credits that total to
`f.available_points`; when no direct edge exists it returns a failed
result and mutates nothing. -/
theorem C2_revoke (s : DSState) (f t : String) (hwf : WFState s) (hft : f ≠ t)
    (ht : (getVoter s t).isSome = true) :
    (edgePoints s f t = none → revokeDelegation s f t = (false, 0, s)) ∧
    (∀ w : Int, edgePoints s f t = some w →
      (revokeDelegation s f t).1 = true ∧
      (revokeDelegation s f t).2.1 = getTotalDelegatedPoints s t ∧
      edgePoints (revokeDelegation s f t).2.2 f t = none ∧
      delegationsOf (revokeDelegation s f t).2.2 t = some [] ∧
      availOf (revokeDelegation s f t).2.2 f =
        (availOf s f).map (· + getTotalDelegatedPoints s t)) := by
  constructor
  · intro h
    have hr : removeDelegation s f t = (false, s) := by
      unfold removeDelegation
      cases hv : alookup s.voters f with
      | none => rfl
      | some v =>
        dsimp only
        cases hd : alookup v.delegations t with
        | none => rfl
        | some i =>
          exfalso
          unfold edgePoints getVoter at h
          rw [hv] at h
          simp only [Option.some_bind, hd, Option.map_some'] at h
          exact absurd h (by simp)
    simp [revokeDelegation, hr]
  · intro w hw
    obtain ⟨vf, hvf, i, hi, hip⟩ := edgePoints_some_elim s f t w hw
    have hvf' : alookup s.voters f = some vf := hvf
    have hr1 : (removeDelegation s f t).1 = true := by
      simp only [removeDelegation, hvf', hi]
    have hrv : revokeDelegation s f t =
        (true, getTotalDelegatedPoints s t,
         modifyVoter
           (resetSubdelegationsAux ((removeDelegation s f t).2.voters.length + 1)
             (removeDelegation s f t).2 t []).1 f
           (fun v => { v with available_points := v.available_points + getTotalDelegatedPoints s t })) := by
      simp only [revokeDelegation, hr1, Bool.not_true, Bool.false_eq_true, if_false]
    refine ⟨by rw [hrv], by rw [hrv], ?_, ?_, ?_⟩
    · rw [hrv]
      dsimp only
      have hcongr : delegationsOf (modifyVoter
          (resetSubdelegationsAux ((removeDelegation s f t).2.voters.length + 1)
            (removeDelegation s f t).2 t []).1 f
          (fun v => { v with available_points := v.available_points + getTotalDelegatedPoints s t })) f =
          delegationsOf (resetSubdelegationsAux
            ((removeDelegation s f t).2.voters.length + 1)
            (removeDelegation s f t).2 t []).1 f := by
        unfold delegationsOf
        apply getVoter_modify_proj
        intro w'
        rfl
      rw [edgePoints_congr f t hcongr]
      apply reset_pres (fun st => edgePoints st f t = none)
        (fun st u' k hP => rd_edge_none st u' k f t hP)
      rw [edgePoints_eq_proj, rd_delegationsOf_from]
      have hdf : delegationsOf s f = some vf.delegations := by
        unfold delegationsOf getVoter
        rw [hvf']
        rfl
      rw [hdf]
      simp only [Option.map_some', Option.some_bind]
      rw [alookup_aerase_self vf.delegations t
        ((hwf.2 (f, vf) (alookup_mem _ _ _ hvf')).1)]
      rfl
    · rw [hrv]
      dsimp only
      have h1 : delegationsOf (modifyVoter
          (resetSubdelegationsAux ((removeDelegation s f t).2.voters.length + 1)
            (removeDelegation s f t).2 t []).1 f
          (fun v => { v with available_points := v.available_points + getTotalDelegatedPoints s t })) t =
          delegationsOf (resetSubdelegationsAux
            ((removeDelegation s f t).2.voters.length + 1)
            (removeDelegation s f t).2 t []).1 t := by
        unfold delegationsOf
        rw [getVoter_modify_ne _ _ _ _ (Ne.symm hft)]
      rw [h1, reset_succ, if_neg (List.not_mem_nil t)]
      have hmem : t ∈ (((removeDelegation s f t).2, [t]) : DSState × List String).2 :=
        List.mem_singleton.2 rfl
      rw [reset_fold_deleg_self ((removeDelegation s f t).2.voters.length) t
        (getDelegationsFrom (removeDelegation s f t).2 t)
        ((removeDelegation s f t).2, [t]) hmem]
      have hdt : delegationsOf (removeDelegation s f t).2 t = delegationsOf s t :=
        rd_delegationsOf_ne s f t t (Ne.symm hft)
      obtain ⟨vt, hvt⟩ := Option.isSome_iff_exists.1 ht
      have hdt2 : delegationsOf s t = some vt.delegations := by
        unfold delegationsOf
        rw [hvt]
        rfl
      have hone := hdt.trans hdt2
      unfold delegationsOf at hone
      cases hv1 : getVoter (removeDelegation s f t).2 t with
      | none => rw [hv1] at hone; exact absurd hone (by simp)
      | some vt1 =>
        rw [hv1] at hone
        simp only [Option.map_some', Option.some.injEq] at hone
        have hv1' : alookup (removeDelegation s f t).2.voters t = some vt1 := hv1
        have hds : getDelegationsFrom (removeDelegation s f t).2 t =
            vt.delegations.map (fun pr => (pr.1, pr.2.points)) := by
          unfold getDelegationsFrom
          rw [hv1']
          dsimp only
          rw [hone]
        rw [hds, hdt, hdt2]
        simp only [Option.map_some', Option.some.injEq]
        have hkeys := foldl_aerase_keys (akeys vt.delegations) vt.delegations rfl
        have hkeys2 : (vt.delegations.map Prod.fst).foldl
            (fun acc k => aerase acc k) vt.delegations = [] := hkeys
        rw [List.foldl_map] at hkeys2
        rw [List.foldl_map]
        exact hkeys2
    · rw [hrv]
      dsimp only
      have h2 : availOf (modifyVoter
          (resetSubdelegationsAux ((removeDelegation s f t).2.voters.length + 1)
            (removeDelegation s f t).2 t []).1 f
          (fun v => { v with available_points := v.available_points + getTotalDelegatedPoints s t })) f =
          (availOf (resetSubdelegationsAux
            ((removeDelegation s f t).2.voters.length + 1)
            (removeDelegation s f t).2 t []).1 f).map
            (· + getTotalDelegatedPoints s t) := by
        unfold availOf
        rw [getVoter_modify_self]
        cases getVoter (resetSubdelegationsAux
          ((removeDelegation s f t).2.voters.length + 1)
          (removeDelegation s f t).2 t []).1 f <;> rfl
      rw [h2]
      have h3 : availOf (resetSubdelegationsAux
          ((removeDelegation s f t).2.voters.length + 1)
          (removeDelegation s f t).2 t []).1 f = availOf s f := by
        apply reset_pres (fun st => availOf st f = availOf s f)
          (fun st u' k hP => (rd_availOf st u' k f).trans hP)
        exact rd_availOf s f t f
      rw [h3]

/-- The claim's own example run: `delegate(A, B, 600, subdelegable=True)`
then `subdelegate(B, C, 400)`. -/
def c2w : DSState :=
  (subdelegatePoints (delegatePoints sysABC "A" "B" 600 true).2 "B" "C" 400).2

/-- C2 witness: on the claim's example ledger, `revoke(A, B)` succeeds,
recovers `get_total_delegated_points(B)` (= 600 here, since B's only
upstream delegation is A's own), removes the A→B edge and empties B's
outgoing delegations (the B→C subdelegation is torn down). -/
theorem C2_revoke_witness :
    (revokeDelegation c2w "A" "B").1 = true ∧
    (revokeDelegation c2w "A" "B").2.1 = getTotalDelegatedPoints c2w "B" ∧
    edgePoints (revokeDelegation c2w "A" "B").2.2 "A" "B" = none ∧
    delegationsOf (revokeDelegation c2w "A" "B").2.2 "B" = some [] := by
  have h := (C2_revoke c2w "A" "B" (by decide) (by decide) (by decide)).2
    600 (by decide)
  exact ⟨h.1, h.2.1, h.2.2.1, h.2.2.2.1⟩

/-- Fresh system with voters `A`, `B`, `C`, `X`. -/
def sysABCX : DSState := (addVoter sysABC "X").2

/-- Ledger `X→A 200`, `A→B 600` (subdelegable), `B→C 400` (subdelegated). -/
def c2x : DSState :=
  (subdelegatePoints (delegatePoints (delegatePoints sysABCX "X" "A" 200
    false).2 "A" "B" 600 true).2 "B" "C" 400).2

/-- C2 counterexample: with a third party's delegation `X→A 200` upstream,
`revoke(A, B)` returns `(true, 800)`, not the claimed `(true, 600)`:
`get_total_delegated_points(B)` recurses to every voter upstream of `B`
and adds A's own incoming `X→A 200`, although those points were never part
of the chain funded by `A→B`.  A is credited 800 and ends with 1198
available points — 200 more than its whole delegatable budget. -/
theorem C2_counterexample :
    edgePoints c2x "X" "A" = some 200 ∧
    edgePoints c2x "A" "B" = some 600 ∧
    edgePoints c2x "B" "C" = some 400 ∧
    (revokeDelegation c2x "A" "B").1 = true ∧
    (revokeDelegation c2x "A" "B").2.1 = 800 ∧
    ¬((revokeDelegation c2x "A" "B").2.1 = 600) ∧
    delegationsOf (revokeDelegation c2x "A" "B").2.2 "B" = some [] ∧
    availOf c2x "A" = some 398 ∧
    availOf (revokeDelegation c2x "A" "B").2.2 "A" = some 1198 := by
  decide
